import Mathlib

/-!
Verification of the mesh-geometry core of the `stl-bench` repository.

The embedding models JavaScript numbers at the extended-rational level of
abstraction: a finite double is represented by an exact rational (`JQ.num`),
and the special values `Infinity`, `-Infinity` and `NaN` are explicit
constructors.  Rounding of finite arithmetic is not modelled: finite
operations are exact.  `Math.sqrt` on finite non-negative arguments is kept
abstract as a parameter `sqrtF : ℚ → ℚ`; its behaviour on special values
(`sqrt(-x) = NaN`, `sqrt(∞) = ∞`, `sqrt(NaN) = NaN`) is fixed by `JQ.sqrt`.

Source files embedded: `src/download_stls.ts` (geometry utilities, ASCII STL
parser, surface sampler, Chamfer distance), `src/bin2ascii.ts` (binary STL
decoding, ASCII re-encoding) and `src/bench.ts` (`compareAsciiStlText`).
-/

namespace StlBench

/-- A JavaScript number: an exact rational or one of the IEEE special values. -/
inductive JQ : Type
  | num (q : ℚ)
  | inf
  | ninf
  | nan
  deriving DecidableEq, Repr

namespace JQ

/-- JS `+` on numbers. -/
def add : JQ → JQ → JQ
  | num a, num b => num (a + b)
  | num _, inf => inf
  | num _, ninf => ninf
  | inf, num _ => inf
  | ninf, num _ => ninf
  | inf, inf => inf
  | ninf, ninf => ninf
  | inf, ninf => nan
  | ninf, inf => nan
  | nan, _ => nan
  | _, nan => nan

/-- JS `-` on numbers. -/
def sub : JQ → JQ → JQ
  | num a, num b => num (a - b)
  | num _, inf => ninf
  | num _, ninf => inf
  | inf, num _ => inf
  | ninf, num _ => ninf
  | inf, inf => nan
  | ninf, ninf => nan
  | inf, ninf => inf
  | ninf, inf => ninf
  | nan, _ => nan
  | _, nan => nan

/-- JS `*` on numbers (`0 * Infinity = NaN`). -/
def mul : JQ → JQ → JQ
  | num a, num b => num (a * b)
  | num a, inf => if a = 0 then nan else if 0 < a then inf else ninf
  | num a, ninf => if a = 0 then nan else if 0 < a then ninf else inf
  | inf, num a => if a = 0 then nan else if 0 < a then inf else ninf
  | ninf, num a => if a = 0 then nan else if 0 < a then ninf else inf
  | inf, inf => inf
  | inf, ninf => ninf
  | ninf, inf => ninf
  | ninf, ninf => inf
  | nan, _ => nan
  | _, nan => nan

/-- JS `/` on numbers (`x/0 = ±Infinity` for `x ≠ 0`, `0/0 = NaN`,
`∞/∞ = NaN`, finite`/∞ = 0`; the zero divisor is `+0`). -/
def div : JQ → JQ → JQ
  | num a, num b =>
      if b = 0 then (if a = 0 then nan else if 0 < a then inf else ninf)
      else num (a / b)
  | num _, inf => num 0
  | num _, ninf => num 0
  | inf, num b => if 0 ≤ b then inf else ninf
  | ninf, num b => if 0 ≤ b then ninf else inf
  | inf, inf => nan
  | inf, ninf => nan
  | ninf, inf => nan
  | ninf, ninf => nan
  | nan, _ => nan
  | _, nan => nan

/-- JS `<` on numbers (any comparison involving `NaN` is `false`). -/
def ltb : JQ → JQ → Bool
  | num a, num b => decide (a < b)
  | num _, inf => true
  | num _, ninf => false
  | inf, num _ => false
  | ninf, num _ => true
  | inf, inf => false
  | ninf, ninf => false
  | ninf, inf => true
  | inf, ninf => false
  | nan, _ => false
  | _, nan => false

/-- JS `Math.max` (propagates `NaN`). -/
def maxJ : JQ → JQ → JQ
  | num a, num b => num (max a b)
  | num _, inf => inf
  | inf, num _ => inf
  | num a, ninf => num a
  | ninf, num a => num a
  | inf, inf => inf
  | ninf, ninf => ninf
  | inf, ninf => inf
  | ninf, inf => inf
  | nan, _ => nan
  | _, nan => nan

/-- JS `Math.min` (propagates `NaN`). -/
def minJ : JQ → JQ → JQ
  | num a, num b => num (min a b)
  | num a, inf => num a
  | inf, num a => num a
  | num _, ninf => ninf
  | ninf, num _ => ninf
  | inf, inf => inf
  | ninf, ninf => ninf
  | inf, ninf => ninf
  | ninf, inf => ninf
  | nan, _ => nan
  | _, nan => nan

/-- JS `Math.sqrt`, with the finite non-negative branch kept abstract as
`sqrtF`. -/
def sqrt (sqrtF : ℚ → ℚ) : JQ → JQ
  | num q => if q < 0 then nan else num (sqrtF q)
  | inf => inf
  | ninf => nan
  | nan => nan

/-- A JS number is finite when it is neither infinite nor `NaN`. -/
def IsFinite (x : JQ) : Prop := ∃ q : ℚ, x = num q

/-- Rank used to totalise the ascending sort order on `JQ`
(`NaN` is placed last; it never occurs in the lists the code sorts). -/
def rank : JQ → ℕ
  | ninf => 0
  | num _ => 1
  | inf => 2
  | nan => 3

/-- Total ascending order modelling `Array.prototype.sort((x, y) => x - y)`
at the value level. -/
def sle (a b : JQ) : Prop :=
  match a, b with
  | num x, num y => x ≤ y
  | a, b => rank a ≤ rank b

instance : DecidableRel sle := by
  intro a b
  cases a <;> cases b <;> simp only [sle] <;> infer_instance

instance : IsTotal JQ sle :=
  ⟨by intro a b; cases a <;> cases b <;> simp only [sle, rank] <;> exact le_total _ _⟩

instance : IsTrans JQ sle := by
  constructor
  intro a b c hab hbc
  cases a <;> cases b <;> cases c <;>
    simp only [sle, rank] at hab hbc ⊢ <;>
    first | exact le_trans hab hbc | omega

end JQ

/-- An exact three-component vector (`Vec3 = [number, number, number]` with
finite components, as required of structurally valid mesh data). -/
structure Vec3 where
  x : ℚ
  y : ℚ
  z : ℚ
  deriving DecidableEq, Repr, Inhabited

/-- A triangle: a normal plus exactly three ordered vertices. -/
structure Triangle where
  normal : Vec3
  v0 : Vec3
  v1 : Vec3
  v2 : Vec3
  deriving DecidableEq, Repr, Inhabited

/-- A three-component vector of JS numbers (AABB corners may be infinite
sentinels). -/
structure JVec3 where
  x : JQ
  y : JQ
  z : JQ
  deriving DecidableEq, Repr

/-- Axis-aligned bounding box, `{ min, max }` in the source. -/
structure Aabb where
  min : JVec3
  max : JVec3
  deriving DecidableEq, Repr

/-- The three vertices of a triangle, in order. -/
def triVerts (t : Triangle) : List Vec3 := [t.v0, t.v1, t.v2]

/-- `if (v[i] < min[i]) min[i] = v[i]` for one axis. -/
def updMin (m : JQ) (v : ℚ) : JQ := if JQ.ltb (JQ.num v) m then JQ.num v else m

/-- `if (v[i] > max[i]) max[i] = v[i]` for one axis. -/
def updMax (m : JQ) (v : ℚ) : JQ := if JQ.ltb m (JQ.num v) then JQ.num v else m

/-- One step of the `aabbOfTriangles` fold: fold one vertex into the box. -/
def updBox (box : Aabb) (v : Vec3) : Aabb :=
  { min := ⟨updMin box.min.x v.x, updMin box.min.y v.y, updMin box.min.z v.z⟩,
    max := ⟨updMax box.max.x v.x, updMax box.max.y v.y, updMax box.max.z v.z⟩ }

/-- The sentinel starting box: `min = [∞,∞,∞]`, `max = [-∞,-∞,-∞]`. -/
def emptyBox : Aabb :=
  { min := ⟨JQ.inf, JQ.inf, JQ.inf⟩, max := ⟨JQ.ninf, JQ.ninf, JQ.ninf⟩ }

/-- `aabbOfTriangles` from `src/download_stls.ts`: componentwise min/max over
all vertices of all triangles, starting from the infinite sentinels. -/
def aabbOfTriangles (triangles : List Triangle) : Aabb :=
  ((triangles.map triVerts).flatten).foldl updBox emptyBox

/-- `aabbVolume`: product of the per-axis extents clamped below by 0. -/
def aabbVolume (box : Aabb) : JQ :=
  let dx := JQ.maxJ (JQ.num 0) (JQ.sub box.max.x box.min.x)
  let dy := JQ.maxJ (JQ.num 0) (JQ.sub box.max.y box.min.y)
  let dz := JQ.maxJ (JQ.num 0) (JQ.sub box.max.z box.min.z)
  JQ.mul (JQ.mul dx dy) dz

/-- `aabbIntersection`: componentwise max-of-mins / min-of-maxes, `null`
when empty on some axis. -/
def aabbIntersection (a b : Aabb) : Option Aabb :=
  let mn : JVec3 := ⟨JQ.maxJ a.min.x b.min.x, JQ.maxJ a.min.y b.min.y, JQ.maxJ a.min.z b.min.z⟩
  let mx : JVec3 := ⟨JQ.minJ a.max.x b.max.x, JQ.minJ a.max.y b.max.y, JQ.minJ a.max.z b.max.z⟩
  if JQ.ltb mx.x mn.x || JQ.ltb mx.y mn.y || JQ.ltb mx.z mn.z then none
  else some ⟨mn, mx⟩

/-- `aabbIou`: intersection volume over union volume, 0 when there is no
intersection or the union volume is not positive. -/
def aabbIou (a b : Aabb) : JQ :=
  match aabbIntersection a b with
  | none => JQ.num 0
  | some inter =>
      let vI := aabbVolume inter
      let vU := JQ.sub (JQ.add (aabbVolume a) (aabbVolume b)) vI
      if JQ.ltb (JQ.num 0) vU then JQ.div vI vU else JQ.num 0

/-- `cross` from `src/download_stls.ts`. -/
def cross (a b : Vec3) : Vec3 :=
  ⟨a.y * b.z - a.z * b.y, a.z * b.x - a.x * b.z, a.x * b.y - a.y * b.x⟩

/-- `dot` from `src/download_stls.ts`. -/
def dot (a b : Vec3) : ℚ := a.x * b.x + a.y * b.y + a.z * b.z

/-- `triangleArea`: half the magnitude of the cross product of two edges.
The magnitude `Math.sqrt(dot(cr, cr))` is applied to a finite non-negative
argument, hence modelled by the abstract finite square root `sqrtF`. -/
def triangleArea (sqrtF : ℚ → ℚ) (t : Triangle) : ℚ :=
  let ab : Vec3 := ⟨t.v1.x - t.v0.x, t.v1.y - t.v0.y, t.v1.z - t.v0.z⟩
  let ac : Vec3 := ⟨t.v2.x - t.v0.x, t.v2.y - t.v0.y, t.v2.z - t.v0.z⟩
  let cr := cross ab ac
  (1 / 2) * sqrtF (dot cr cr)

/-- `surfaceArea`: sum of per-triangle areas. -/
def surfaceArea (sqrtF : ℚ → ℚ) (triangles : List Triangle) : ℚ :=
  triangles.foldl (fun sum t => sum + triangleArea sqrtF t) 0

/-- `signedVolume`: divergence-theorem tetrahedron-fan formula. -/
def signedVolume (triangles : List Triangle) : ℚ :=
  (triangles.foldl (fun sum t => sum + dot t.v0 (cross t.v1 t.v2)) 0) / 6

/-- `surfaceCentroid`: area-weighted centroid of the triangle midpoints. -/
def surfaceCentroid (sqrtF : ℚ → ℚ) (triangles : List Triangle) : Vec3 :=
  let acc := triangles.foldl
    (fun acc t =>
      let area := triangleArea sqrtF t
      ((acc.1.1 + (t.v0.x + t.v1.x + t.v2.x) / 3 * area,
        acc.1.2.1 + (t.v0.y + t.v1.y + t.v2.y) / 3 * area,
        acc.1.2.2 + (t.v0.z + t.v1.z + t.v2.z) / 3 * area),
       acc.2 + area))
    (((0 : ℚ), (0 : ℚ), (0 : ℚ)), (0 : ℚ))
  if acc.2 = 0 then ⟨0, 0, 0⟩
  else ⟨acc.1.1 / acc.2, acc.1.2.1 / acc.2, acc.1.2.2 / acc.2⟩

/-- The cumulative per-triangle weight array built by `sampleSurfacePoints`:
per-triangle areas (or the uniform fallback when the total area is 0),
overwritten in place by their prefix sums. -/
def cumWeights (sqrtF : ℚ → ℚ) (triangles : List Triangle) : List ℚ :=
  let areas := triangles.map (triangleArea sqrtF)
  let ws := if areas.sum = 0 then List.replicate triangles.length (1 : ℚ) else areas
  (ws.scanl (· + ·) 0).drop 1

/-- The binary search of `pickTriangleIndex`: narrow `[lo, hi]` to the first
index whose cumulative weight is `≥ r` (`r <= cutoff` keeps the low half). -/
def binSearch (cum : List ℚ) (r : ℚ) (lo hi : ℕ) : ℕ :=
  if h : lo < hi then
    let mid := (lo + hi) / 2
    if r ≤ cum.getD mid 0 then binSearch cum r lo mid
    else binSearch cum r (mid + 1) hi
  else lo
termination_by hi - lo
decreasing_by
  · omega
  · omega

/-- `pickTriangleIndex` for a mesh with `n` triangles, given the uniform draw
`u` (one `rng()` call). -/
def pickTriangleIndex (cum : List ℚ) (n : ℕ) (u : ℚ) : ℕ :=
  let totalArea := cum.getD (n - 1) 0
  binSearch cum (u * totalArea) 0 (n - 1)

/-- `samplePointInTriangle`: square-root–transformed barycentric placement,
from the two uniform draws `u1` and `u2` (`r1 = Math.sqrt(rng())`,
`r2 = rng()`). -/
def samplePointInTriangle (sqrtF : ℚ → ℚ) (a b c : Vec3) (u1 u2 : ℚ) : Vec3 :=
  let r1 := sqrtF u1
  let r2 := u2
  let u := 1 - r1
  let v := r1 * (1 - r2)
  let w := r1 * r2
  ⟨u * a.x + v * b.x + w * c.x,
   u * a.y + v * b.y + w * c.y,
   u * a.z + v * b.z + w * c.z⟩

/-- `sampleSurfacePoints`.  The injectable random source is modelled as a
stream `rng : ℕ → ℚ` of successive `rng()` results; draw `i` consumes calls
`3*i` (triangle pick), `3*i+1` and `3*i+2` (barycentric placement), matching
the call order in the source. -/
def sampleSurfacePoints (sqrtF : ℚ → ℚ) (rng : ℕ → ℚ)
    (triangles : List Triangle) (sampleCount : ℤ) : List Vec3 :=
  let n := triangles.length
  if n = 0 ∨ sampleCount ≤ 0 then [] else
  let cum := cumWeights sqrtF triangles
  (List.range sampleCount.toNat).map fun i =>
    let idx := pickTriangleIndex cum n (rng (3 * i))
    let t := triangles.getD idx default
    samplePointInTriangle sqrtF t.v0 t.v1 t.v2 (rng (3 * i + 1)) (rng (3 * i + 2))

/-- `squaredDistance`. -/
def squaredDistance (a b : Vec3) : ℚ :=
  (a.x - b.x) * (a.x - b.x) + (a.y - b.y) * (a.y - b.y) + (a.z - b.z) * (a.z - b.z)

/-- The six-field Chamfer statistics record. -/
structure ChamferStats where
  meanAB : JQ
  meanBA : JQ
  p95AB : JQ
  p95BA : JQ
  maxAB : JQ
  maxBA : JQ
  deriving DecidableEq, Repr

/-- The inner loop of `oneWay`: `best` starts at `Infinity` and is lowered to
each strictly smaller squared distance. -/
def minSqDist (p : Vec3) (b : List Vec3) : JQ :=
  b.foldl
    (fun best q =>
      if JQ.ltb (JQ.num (squaredDistance p q)) best then JQ.num (squaredDistance p q)
      else best)
    JQ.inf

/-- The statistics of one direction of `chamferDistance`. -/
structure OneWayStats where
  mean : JQ
  p95 : JQ
  max : JQ
  deriving DecidableEq, Repr

/-- `oneWay` inside `chamferDistance`: per-point `sqrt` of the minimal squared
distance, sorted ascending; mean over `length || 1`; `p95` at index
`min(length - 1, floor(length * 0.95))`; `max` at the last index.  The
out-of-range lookups of the empty case (`mins[-1] ?? 0`) yield the default 0,
as in the source. -/
def oneWay (sqrtF : ℚ → ℚ) (a b : List Vec3) : OneWayStats :=
  let mins := a.map fun p => JQ.sqrt sqrtF (minSqDist p b)
  let sorted := List.insertionSort JQ.sle mins
  let len := a.length
  let mean := JQ.div (sorted.foldl JQ.add (JQ.num 0))
    (JQ.num (if len = 0 then 1 else (len : ℚ)))
  let p95Index := Nat.min (len - 1) (19 * len / 20)
  { mean := mean,
    p95 := sorted.getD p95Index (JQ.num 0),
    max := sorted.getD (len - 1) (JQ.num 0) }

/-- `chamferDistance` from `src/download_stls.ts`. -/
def chamferDistance (sqrtF : ℚ → ℚ) (pointsA pointsB : List Vec3) : ChamferStats :=
  let ab := oneWay sqrtF pointsA pointsB
  let ba := oneWay sqrtF pointsB pointsA
  { meanAB := ab.mean, meanBA := ba.mean, p95AB := ab.p95, p95BA := ba.p95,
    maxAB := ab.max, maxBA := ba.max }

/-- `aabbDiagonal`: Euclidean length of `max - min` (may be applied to the
sentinel box of an empty mesh, where the extents are `-Infinity`). -/
def aabbDiagonal (sqrtF : ℚ → ℚ) (box : Aabb) : JQ :=
  let dx := JQ.sub box.max.x box.min.x
  let dy := JQ.sub box.max.y box.min.y
  let dz := JQ.sub box.max.z box.min.z
  JQ.sqrt sqrtF (JQ.add (JQ.add (JQ.mul dx dx) (JQ.mul dy dy)) (JQ.mul dz dz))

/-- The metric bundle produced by `compareAsciiStlText` in `src/bench.ts`. -/
structure Metrics where
  aabbIou : JQ
  surfaceAreaRatio : JQ
  volumeRatio : JQ
  chamfer : ChamferStats
  deriving DecidableEq, Repr

/-- The pure metric computation of `compareAsciiStlText`, after both texts
have been parsed.  `rngA` and `rngB` are the random streams consumed by the
two `sampleSurfacePoints` calls; `sampleN = 2000` as in the source. -/
def compareMeshes (sqrtF : ℚ → ℚ) (rngA rngB : ℕ → ℚ)
    (srcTris genTris : List Triangle) : Metrics :=
  let aabbSrc := aabbOfTriangles srcTris
  let aabbGen := aabbOfTriangles genTris
  let iou := aabbIou aabbSrc aabbGen
  let areaSrc := surfaceArea sqrtF srcTris
  let areaGen := surfaceArea sqrtF genTris
  let volSrc := |signedVolume srcTris|
  let volGen := |signedVolume genTris|
  let sampleN : ℤ := 2000
  let ptsSrc := sampleSurfacePoints sqrtF rngA srcTris sampleN
  let ptsGen := sampleSurfacePoints sqrtF rngB genTris sampleN
  let ch := chamferDistance sqrtF ptsSrc ptsGen
  let diag := JQ.maxJ (JQ.num (1 / 1000000000))
    (JQ.maxJ (aabbDiagonal sqrtF aabbSrc) (aabbDiagonal sqrtF aabbGen))
  { aabbIou := iou,
    surfaceAreaRatio :=
      if 0 < areaGen ∧ 0 < areaSrc then JQ.num (min areaGen areaSrc / max areaGen areaSrc)
      else JQ.num 0,
    volumeRatio :=
      if 0 < volGen ∧ 0 < volSrc then JQ.num (min volGen volSrc / max volGen volSrc)
      else JQ.num 0,
    chamfer :=
      { meanAB := JQ.div ch.meanAB diag, meanBA := JQ.div ch.meanBA diag,
        p95AB := JQ.div ch.p95AB diag, p95BA := JQ.div ch.p95BA diag,
        maxAB := JQ.div ch.maxAB diag, maxBA := JQ.div ch.maxBA diag } }

/-! ## ASCII STL text decoding (`parseAsciiStl` in `src/download_stls.ts`)

JS strings are modelled as `List Char`.  `trim` and `split(/\s+/)` use the
whitespace class below (the JS class restricted to the characters relevant
to line-oriented STL text). -/

/-- JS whitespace, for `trim` and `split(/\s+/)`. -/
def isWs (c : Char) : Bool := c == ' ' || c == '\t' || c == '\r' || c == '\n'

/-- `String.prototype.trim`. -/
def jsTrim (l : List Char) : List Char :=
  ((l.dropWhile isWs).reverse.dropWhile isWs).reverse

/-- `text.replace(/\r\n/g, '\n')`. -/
def replaceCRLF : List Char → List Char
  | '\r' :: '\n' :: rest => '\n' :: replaceCRLF rest
  | c :: rest => c :: replaceCRLF rest
  | [] => []

mutual

/-- Worker for `split(/\s+/)`: accumulate the current token (reversed); a
whitespace character emits the token and hands over to the run-skipping
state. -/
def splitWsGo (cur : List Char) : List Char → List (List Char)
  | [] => [cur.reverse]
  | c :: rest =>
      if isWs c then cur.reverse :: splitWsSkip rest
      else splitWsGo (c :: cur) rest

/-- Skip the remainder of a whitespace run; at the end of the string the run
was trailing, which contributes a final empty token (as in JS). -/
def splitWsSkip : List Char → List (List Char)
  | [] => [[]]
  | c :: rest =>
      if isWs c then splitWsSkip rest
      else splitWsGo [c] rest

end

/-- `s.split(/\s+/)` (on the empty string this yields `[""]`, as in JS). -/
def jsSplitWs (l : List Char) : List (List Char) := splitWsGo [] l

/-- One decimal digit of a token, or `none`. -/
def charDigit (c : Char) : Option ℕ :=
  if '0' ≤ c ∧ c ≤ '9' then some (c.toNat - 48) else none

/-- Accumulating worker for the value of a digit string. -/
def digitsValGo : List Char → ℕ → Option ℕ
  | [], acc => some acc
  | c :: cs, acc =>
      match charDigit c with
      | some d => digitsValGo cs (10 * acc + d)
      | none => none

/-- Value of a digit string (most significant first); `none` when any
character is not a decimal digit.  The empty string has value 0. -/
def digitsVal (l : List Char) : Option ℕ := digitsValGo l 0

/-- Model of `Number(token)` restricted to plain decimal literals
`[+|-] digits [ '.' digits ]` (at least one digit); every other token —
empty, exponent form, hex, `Infinity`, embedded junk — is treated as `NaN`
(`none`).  All numeric tokens produced by the ASCII encoder have this plain
shape, and every consumer of this model immediately coerces `NaN` to 0
(`x || 0`), which is also what `Number('')` = 0 maps to. -/
def jsNumber (l : List Char) : Option ℚ :=
  let neg : Bool := l.take 1 = ['-']
  let r : List Char := if l.take 1 = ['-'] ∨ l.take 1 = ['+'] then l.drop 1 else l
  let ip := r.takeWhile (fun c => c != '.')
  let rest := r.dropWhile (fun c => c != '.')
  let fp := rest.drop 1
  match digitsVal ip, digitsVal fp with
  | some a, some b =>
      if ip = [] ∧ fp = [] then none
      else some ((if neg then -1 else 1) * ((a : ℚ) + (b : ℚ) / 10 ^ fp.length))
  | _, _ => none

/-- `x || 0` applied to a parsed numeric token: `NaN`/missing degrade to 0. -/
def orZero (o : Option ℚ) : ℚ := o.getD 0

/-- `line.trim().startsWith('facet normal')`. -/
def isFacetLine (l : List Char) : Bool := "facet normal".toList.isPrefixOf (jsTrim l)

/-- `line.trim().startsWith('outer loop')`. -/
def isOuterLoopLine (l : List Char) : Bool := "outer loop".toList.isPrefixOf (jsTrim l)

/-- `line.trim().startsWith('endfacet')`. -/
def isEndfacetLine (l : List Char) : Bool := "endfacet".toList.isPrefixOf (jsTrim l)

/-- `vline.startsWith('vertex')` (the line is trimmed before the check). -/
def isVertexLine (l : List Char) : Bool := "vertex".toList.isPrefixOf (jsTrim l)

/-- `parseFloatsFromLine`: trim, split on whitespace runs, drop the first two
tokens, parse the rest. -/
def parseFloatsFromLine (l : List Char) : List (Option ℚ) :=
  ((jsSplitWs (jsTrim l)).drop 2).map jsNumber

/-- The normal of a `facet normal` line: `normalVals[k] || 0`. -/
def parseNormalOfLine (l : List Char) : Vec3 :=
  let vals := parseFloatsFromLine l
  ⟨orZero (vals.getD 0 none), orZero (vals.getD 1 none), orZero (vals.getD 2 none)⟩

/-- The vector of a `vertex` line: split the trimmed line, drop the `vertex`
token, `vals[k] || 0`. -/
def parseVertexLine (l : List Char) : Vec3 :=
  let vals := ((jsSplitWs (jsTrim l)).drop 1).map jsNumber
  ⟨orZero (vals.getD 0 none), orZero (vals.getD 1 none), orZero (vals.getD 2 none)⟩

/-- The `for (k = 0; k < 3 && i < lines.length; ...)` vertex loop: read up to
`k` consecutive `vertex` lines; a non-`vertex` line breaks, leaving the
cursor on that line; running out of lines leaves the cursor past the end. -/
def takeVerts : ℕ → List (List Char) → List Vec3 × List (List Char)
  | 0, ls => ([], ls)
  | _ + 1, [] => ([], [])
  | k + 1, l :: ls =>
      if isVertexLine l then
        let r := takeVerts k ls
        (parseVertexLine l :: r.1, r.2)
      else ([], l :: ls)

/-- Scan forward to the `outer loop` line, then step past it
(`while (...) i++; i++`). -/
def afterOuterLoop (rest : List (List Char)) : List (List Char) :=
  (rest.dropWhile (fun x => !(isOuterLoopLine x))).drop 1

/-- The vertices collected for the facet block opened by a `facet normal`
line whose following lines are `rest`. -/
def blockVerts (rest : List (List Char)) : List Vec3 :=
  (takeVerts 3 (afterOuterLoop rest)).1

/-- The lines remaining after the facet block: skip to `endfacet`
(`while (...) i++`), then the bottom-of-loop `i++`. -/
def blockRest (rest : List (List Char)) : List (List Char) :=
  (((takeVerts 3 (afterOuterLoop rest)).2).dropWhile (fun x => !(isEndfacetLine x))).drop 1

theorem takeVerts_snd_length_le :
    ∀ (k : ℕ) (ls : List (List Char)), (takeVerts k ls).2.length ≤ ls.length := by
  intro k
  induction k with
  | zero => intro ls; simp [takeVerts]
  | succ k ih =>
      intro ls
      cases ls with
      | nil => simp [takeVerts]
      | cons l ls =>
          by_cases h : isVertexLine l = true <;> simp only [takeVerts, h, if_true, if_false,
            Bool.false_eq_true, List.length_cons]
          · exact le_trans (ih ls) (Nat.le_succ _)
          · simp

theorem blockRest_length_le (rest : List (List Char)) :
    (blockRest rest).length ≤ rest.length := by
  have h1 : (afterOuterLoop rest).length ≤ rest.length := by
    have := (List.dropWhile_suffix (l := rest) (fun x => !(isOuterLoopLine x))).length_le
    simp only [afterOuterLoop, List.length_drop]
    omega
  have h2 := takeVerts_snd_length_le 3 (afterOuterLoop rest)
  have h3 := (List.dropWhile_suffix (l := (takeVerts 3 (afterOuterLoop rest)).2)
    (fun x => !(isEndfacetLine x))).length_le
  simp only [blockRest, List.length_drop]
  omega

/-- The main `while (i < lines.length)` loop of `parseAsciiStl`: a
`facet normal` line opens a block; the triangle is appended exactly when the
vertex loop collected three vertices (`verts.length === 3`); any other line
is skipped. -/
def parseLoop : List (List Char) → List Triangle
  | [] => []
  | l :: rest =>
      if isFacetLine l then
        (if (blockVerts rest).length = 3 then
          [{ normal := parseNormalOfLine l,
             v0 := (blockVerts rest).getD 0 default,
             v1 := (blockVerts rest).getD 1 default,
             v2 := (blockVerts rest).getD 2 default }]
         else []) ++ parseLoop (blockRest rest)
      else parseLoop rest
termination_by ls => ls.length
decreasing_by
  · have := blockRest_length_le rest
    simp only [List.length_cons]
    omega
  · simp

/-- `parseAsciiStl`: normalise CRLF, split into lines, run the facet loop. -/
def parseAsciiStl (text : List Char) : List Triangle :=
  parseLoop ((replaceCRLF text).splitOn '\n')

/-! ## ASCII STL re-encoding (`src/bin2ascii.ts`) -/

/-- Big-endian decimal digit characters of `n` (`"0"` for 0). -/
def natChars (n : ℕ) : List Char :=
  if n = 0 then ['0'] else ((Nat.digits 10 n).map Nat.digitChar).reverse

/-- `value.toFixed(precision)` on an exact rational: round half away from
zero to `precision` fractional digits and print them all (ES2023
`Number.prototype.toFixed` picks the larger candidate on ties, applied to
`|value|` after the sign is split off). -/
def toFixedChars (q : ℚ) (precision : ℕ) : List Char :=
  let n : ℕ := ⌊|q| * 10 ^ precision + 1 / 2⌋.toNat
  let ip := n / 10 ^ precision
  let fpDigits : List Char :=
    ((Nat.digits 10 (n % 10 ^ precision) ++
      List.replicate (precision - (Nat.digits 10 (n % 10 ^ precision)).length) 0).map
        Nat.digitChar).reverse
  (if q < 0 then ['-'] else []) ++ natChars ip ++
    (if precision = 0 then [] else '.' :: fpDigits)

/-- `trimTrailingZeros`: drop trailing zeros of the fractional part; drop the
decimal point too when the whole fractional part was zeros; strings without
a point are unchanged. -/
def trimTrailingZeros (numStr : List Char) : List Char :=
  if '.' ∈ numStr then
    let r := numStr.reverse.dropWhile (fun c => c == '0')
    (if r.take 1 = ['.'] then r.drop 1 else r).reverse
  else numStr

/-- `formatFloat` (the input is an exact rational, hence always finite; the
`Number.isFinite` and `-0` guards of the source are identities here). -/
def formatFloat (value : ℚ) (precision : ℕ) : List Char :=
  trimTrailingZeros (toFixedChars value precision)

/-- The seven lines emitted for one facet by `trianglesToAscii`. -/
def triangleBlockLines (tri : Triangle) (precision : ℕ) : List (List Char) :=
  [("  facet normal ".toList ++ formatFloat tri.normal.x precision ++ [' '] ++
      formatFloat tri.normal.y precision ++ [' '] ++ formatFloat tri.normal.z precision),
   "    outer loop".toList,
   ("      vertex ".toList ++ formatFloat tri.v0.x precision ++ [' '] ++
      formatFloat tri.v0.y precision ++ [' '] ++ formatFloat tri.v0.z precision),
   ("      vertex ".toList ++ formatFloat tri.v1.x precision ++ [' '] ++
      formatFloat tri.v1.y precision ++ [' '] ++ formatFloat tri.v1.z precision),
   ("      vertex ".toList ++ formatFloat tri.v2.x precision ++ [' '] ++
      formatFloat tri.v2.y precision ++ [' '] ++ formatFloat tri.v2.z precision),
   "    endloop".toList,
   "  endfacet".toList]

/-- `trianglesToAscii`, producing the emitted lines in order. -/
def trianglesToAsciiLines (triangles : List Triangle) (solidName : List Char)
    (precision : ℕ) : List (List Char) :=
  ("solid ".toList ++ solidName) ::
    (triangles.map fun tri => triangleBlockLines tri precision).flatten ++
    [("endsolid ".toList ++ solidName)]

/-- The vector recovered by re-parsing the precision-6 prints of the three
coordinates of `v` (the composition parse ∘ print on one vector). -/
def reparsedVec (v : Vec3) : Vec3 :=
  ⟨orZero (jsNumber (formatFloat v.x 6)), orZero (jsNumber (formatFloat v.y 6)),
   orZero (jsNumber (formatFloat v.z 6))⟩

/-- The triangle recovered by decoding one emitted facet block. -/
def reparsedTri (t : Triangle) : Triangle :=
  { normal := reparsedVec t.normal, v0 := reparsedVec t.v0, v1 := reparsedVec t.v1,
    v2 := reparsedVec t.v2 }

/-- All three coordinates of `a` and `b` agree within `ε`. -/
def vecClose (ε : ℚ) (a b : Vec3) : Prop :=
  |a.x - b.x| ≤ ε ∧ |a.y - b.y| ≤ ε ∧ |a.z - b.z| ≤ ε

/-- The three vertices of `s` and `t` agree componentwise within `ε`. -/
def triVertsClose (ε : ℚ) (s t : Triangle) : Prop :=
  vecClose ε s.v0 t.v0 ∧ vecClose ε s.v1 t.v1 ∧ vecClose ε s.v2 t.v2

/-- `trianglesToAscii`: the lines joined with `'\n'`. -/
def trianglesToAscii (triangles : List Triangle) (solidName : List Char)
    (precision : ℕ) : List Char :=
  List.intercalate ['\n'] (trianglesToAsciiLines triangles solidName precision)

/-! ## Binary STL decoding (`src/bin2ascii.ts`) -/

/-- Read one byte of a buffer (reads in the source are guarded to be in
range, so the default is irrelevant). -/
def getByte (buf : List ℕ) (i : ℕ) : ℕ := buf.getD i 0

/-- `DataView.getUint32(off, true)`: little-endian 32-bit read. -/
def getUint32LE (buf : List ℕ) (off : ℕ) : ℕ :=
  getByte buf off + 256 * getByte buf (off + 1) + 65536 * getByte buf (off + 2) +
    16777216 * getByte buf (off + 3)

/-- `isLikelyBinaryStl`: the byte length must be exactly
`84 + 50 * count` for the embedded little-endian count at offset 80. -/
def isLikelyBinaryStl (fileSize : ℕ) (buf : List ℕ) : Bool :=
  if fileSize < 84 then false
  else 84 + getUint32LE buf 80 * 50 == fileSize

/-- `isBinaryStl`. -/
def isBinaryStl (buf : List ℕ) : Bool :=
  isLikelyBinaryStl buf.length buf

/-- `readFloat3`: three consecutive little-endian 32-bit floats.  The bit
decoding of 4 bytes into a double is kept abstract as `f32`. -/
def readFloat3 (f32 : List ℕ → ℕ → ℚ) (buf : List ℕ) (off : ℕ) : Vec3 :=
  ⟨f32 buf off, f32 buf (off + 4), f32 buf (off + 8)⟩

/-- `parseBinaryStl`: fails exactly on the two size checks, otherwise decodes
`count` triangles of 50 bytes each starting at offset 84. -/
def parseBinaryStl (f32 : List ℕ → ℕ → ℚ) (buf : List ℕ) :
    Except String (List Triangle) :=
  if buf.length < 84 then .error "File too small to be a valid binary STL."
  else if ¬ isLikelyBinaryStl buf.length buf then
    .error "Input does not look like a binary STL (size/count mismatch)."
  else
    let triangleCount := getUint32LE buf 80
    .ok <| (List.range triangleCount).map fun i =>
      let off := 84 + 50 * i
      { normal := readFloat3 f32 buf off,
        v0 := readFloat3 f32 buf (off + 12),
        v1 := readFloat3 f32 buf (off + 24),
        v2 := readFloat3 f32 buf (off + 36) }

/-- Spec-side definition (from the wording of the Chamfer claim): the
minimum Euclidean distance from `p` to a non-empty target set, where the
Euclidean distance is `Math.sqrt` of the squared distance. -/
def specMinEuclidDist (sqrtF : ℚ → ℚ) (p : Vec3) (b : List Vec3) : ℚ :=
  match b with
  | [] => 0
  | q :: rest => rest.foldl (fun m q2 => min m (sqrtF (squaredDistance p q2)))
      (sqrtF (squaredDistance p q))

/-- Spec-side condition (for the amended parser claim): the first three
lines after the `outer loop` line all start with `vertex`. -/
def firstThreeAreVertexLines (rest : List (List Char)) : Prop :=
  ((afterOuterLoop rest).take 3).length = 3 ∧
    ∀ l ∈ (afterOuterLoop rest).take 3, isVertexLine l = true

instance (rest : List (List Char)) : Decidable (firstThreeAreVertexLines rest) := by
  unfold firstThreeAreVertexLines; infer_instance

/-! ## Lemmas about the JS number model -/

namespace JQ

@[simp] theorem add_num (a b : ℚ) : add (num a) (num b) = num (a + b) := rfl

@[simp] theorem sub_num (a b : ℚ) : sub (num a) (num b) = num (a - b) := rfl

@[simp] theorem mul_num (a b : ℚ) : mul (num a) (num b) = num (a * b) := rfl

@[simp] theorem maxJ_num (a b : ℚ) : maxJ (num a) (num b) = num (max a b) := rfl

@[simp] theorem minJ_num (a b : ℚ) : minJ (num a) (num b) = num (min a b) := rfl

@[simp] theorem ltb_num (a b : ℚ) : ltb (num a) (num b) = decide (a < b) := rfl

theorem div_num_of_ne (a : ℚ) {b : ℚ} (hb : b ≠ 0) :
    div (num a) (num b) = num (a / b) := by
  simp [div, hb]

theorem sqrt_num_of_nonneg (sqrtF : ℚ → ℚ) {q : ℚ} (hq : 0 ≤ q) :
    sqrt sqrtF (num q) = num (sqrtF q) := by
  simp [sqrt, not_lt.mpr hq]

theorem maxJ_self (x : JQ) : maxJ x x = x := by
  cases x <;> simp [maxJ]

theorem minJ_self (x : JQ) : minJ x x = x := by
  cases x <;> simp [minJ]

theorem ltb_irrefl (x : JQ) : ltb x x = false := by
  cases x <;> simp [ltb]

theorem isFinite_num (q : ℚ) : IsFinite (num q) := ⟨q, rfl⟩

theorem isFinite_add {x y : JQ} (hx : IsFinite x) (hy : IsFinite y) :
    IsFinite (add x y) := by
  obtain ⟨a, rfl⟩ := hx; obtain ⟨b, rfl⟩ := hy; exact ⟨a + b, rfl⟩

theorem isFinite_div {x y : JQ} (hx : IsFinite x) {b : ℚ} (hy : y = num b)
    (hb : b ≠ 0) : IsFinite (div x y) := by
  obtain ⟨a, rfl⟩ := hx; subst hy; exact ⟨a / b, div_num_of_ne a hb⟩

end JQ

/-! ## Lemmas about the bounding-box fold -/

/-- The componentwise decomposition of the `aabbOfTriangles` fold. -/
theorem foldl_updBox_eq (vs : List Vec3) (box : Aabb) :
    vs.foldl updBox box =
      ⟨⟨vs.foldl (fun m v => updMin m v.x) box.min.x,
        vs.foldl (fun m v => updMin m v.y) box.min.y,
        vs.foldl (fun m v => updMin m v.z) box.min.z⟩,
       ⟨vs.foldl (fun m v => updMax m v.x) box.max.x,
        vs.foldl (fun m v => updMax m v.y) box.max.y,
        vs.foldl (fun m v => updMax m v.z) box.max.z⟩⟩ := by
  induction vs generalizing box with
  | nil => rfl
  | cons v vs ih => exact ih (updBox box v)

theorem foldl_updMin_num (f : Vec3 → ℚ) (vs : List Vec3) (m : ℚ) :
    vs.foldl (fun m v => updMin m (f v)) (JQ.num m) =
      JQ.num (vs.foldl (fun m v => min m (f v)) m) := by
  induction vs generalizing m with
  | nil => rfl
  | cons v vs ih =>
      have h : updMin (JQ.num m) (f v) = JQ.num (min m (f v)) := by
        simp only [updMin, JQ.ltb_num]
        rcases lt_or_ge (f v) m with h | h
        · simp [h, min_eq_right h.le]
        · simp [not_lt.mpr h, min_eq_left h]
      simpa [h] using ih (min m (f v))

theorem foldl_updMax_num (f : Vec3 → ℚ) (vs : List Vec3) (m : ℚ) :
    vs.foldl (fun m v => updMax m (f v)) (JQ.num m) =
      JQ.num (vs.foldl (fun m v => max m (f v)) m) := by
  induction vs generalizing m with
  | nil => rfl
  | cons v vs ih =>
      have h : updMax (JQ.num m) (f v) = JQ.num (max m (f v)) := by
        simp only [updMax, JQ.ltb_num]
        rcases lt_or_ge m (f v) with h | h
        · simp [h, max_eq_right h.le]
        · simp [not_lt.mpr h, max_eq_left h]
      simpa [h] using ih (max m (f v))

theorem foldl_min_le_init (f : Vec3 → ℚ) (vs : List Vec3) (m : ℚ) :
    vs.foldl (fun m v => min m (f v)) m ≤ m := by
  induction vs generalizing m with
  | nil => simp
  | cons v vs ih => exact le_trans (ih (min m (f v))) (min_le_left _ _)

theorem le_foldl_max_init (f : Vec3 → ℚ) (vs : List Vec3) (m : ℚ) :
    m ≤ vs.foldl (fun m v => max m (f v)) m := by
  induction vs generalizing m with
  | nil => simp
  | cons v vs ih => exact le_trans (le_max_left _ _) (ih (max m (f v)))

theorem foldl_min_le_mem (f : Vec3 → ℚ) (vs : List Vec3) (m : ℚ) {v : Vec3}
    (hv : v ∈ vs) : vs.foldl (fun m v => min m (f v)) m ≤ f v := by
  induction vs generalizing m with
  | nil => cases hv
  | cons w vs ih =>
      rcases List.mem_cons.mp hv with rfl | hv
      · exact le_trans (foldl_min_le_init f vs _) (min_le_right _ _)
      · exact ih _ hv

theorem le_foldl_max_mem (f : Vec3 → ℚ) (vs : List Vec3) (m : ℚ) {v : Vec3}
    (hv : v ∈ vs) : f v ≤ vs.foldl (fun m v => max m (f v)) m := by
  induction vs generalizing m with
  | nil => cases hv
  | cons w vs ih =>
      rcases List.mem_cons.mp hv with rfl | hv
      · exact le_trans (le_max_right _ _) (le_foldl_max_init f vs _)
      · exact ih _ hv

/-- The flattened vertex list of a mesh. -/
def meshVerts (tris : List Triangle) : List Vec3 := (tris.map triVerts).flatten

theorem meshVerts_ne_nil {tris : List Triangle} (h : tris ≠ []) :
    meshVerts tris ≠ [] := by
  cases tris with
  | nil => exact absurd rfl h
  | cons t ts => simp [meshVerts, triVerts]

theorem mem_meshVerts {tris : List Triangle} {t : Triangle} (ht : t ∈ tris) :
    t.v0 ∈ meshVerts tris ∧ t.v1 ∈ meshVerts tris ∧ t.v2 ∈ meshVerts tris := by
  refine ⟨?_, ?_, ?_⟩ <;>
    · simp only [meshVerts, List.mem_flatten]
      exact ⟨triVerts t, List.mem_map_of_mem _ ht, by simp [triVerts]⟩

/-- Characterisation of the bounding box of a non-empty mesh: finite
componentwise extrema that bound every vertex, with `min ≤ max`. -/
theorem aabbOf_nonempty (tris : List Triangle) (h : tris ≠ []) :
    ∃ mn mx : Vec3,
      aabbOfTriangles tris =
        ⟨⟨JQ.num mn.x, JQ.num mn.y, JQ.num mn.z⟩,
         ⟨JQ.num mx.x, JQ.num mx.y, JQ.num mx.z⟩⟩ ∧
      (∀ v ∈ meshVerts tris,
        mn.x ≤ v.x ∧ v.x ≤ mx.x ∧ mn.y ≤ v.y ∧ v.y ≤ mx.y ∧ mn.z ≤ v.z ∧ v.z ≤ mx.z) ∧
      mn.x ≤ mx.x ∧ mn.y ≤ mx.y ∧ mn.z ≤ mx.z := by
  obtain ⟨v, vs, hvs⟩ := List.exists_cons_of_ne_nil (meshVerts_ne_nil h)
  have hbox : aabbOfTriangles tris = (meshVerts tris).foldl updBox emptyBox := rfl
  rw [hvs] at hbox
  have hstep : (v :: vs).foldl updBox emptyBox = vs.foldl updBox (updBox emptyBox v) := rfl
  have hinit : updBox emptyBox v =
      ⟨⟨JQ.num v.x, JQ.num v.y, JQ.num v.z⟩, ⟨JQ.num v.x, JQ.num v.y, JQ.num v.z⟩⟩ := by
    simp [updBox, emptyBox, updMin, updMax, JQ.ltb]
  refine ⟨⟨vs.foldl (fun m w => min m w.x) v.x,
           vs.foldl (fun m w => min m w.y) v.y,
           vs.foldl (fun m w => min m w.z) v.z⟩,
         ⟨vs.foldl (fun m w => max m w.x) v.x,
           vs.foldl (fun m w => max m w.y) v.y,
           vs.foldl (fun m w => max m w.z) v.z⟩, ?_, ?_, ?_, ?_, ?_⟩
  · rw [hbox, hstep, hinit, foldl_updBox_eq]
    simp [foldl_updMin_num, foldl_updMax_num]
  · intro w hw
    rw [hvs] at hw
    rcases List.mem_cons.mp hw with rfl | hw
    · exact ⟨foldl_min_le_init _ _ _, le_foldl_max_init _ _ _,
        foldl_min_le_init _ _ _, le_foldl_max_init _ _ _,
        foldl_min_le_init _ _ _, le_foldl_max_init _ _ _⟩
    · exact ⟨foldl_min_le_mem _ _ _ hw, le_foldl_max_mem _ _ _ hw,
        foldl_min_le_mem _ _ _ hw, le_foldl_max_mem _ _ _ hw,
        foldl_min_le_mem _ _ _ hw, le_foldl_max_mem _ _ _ hw⟩
  · exact le_trans (foldl_min_le_init _ _ _) (le_foldl_max_init _ _ _)
  · exact le_trans (foldl_min_le_init _ _ _) (le_foldl_max_init _ _ _)
  · exact le_trans (foldl_min_le_init _ _ _) (le_foldl_max_init _ _ _)

/-! ## Claim C10 — Chamfer distance of two empty point clouds -/

/-- C10: `chamferDistance` applied to two empty point clouds returns all six
statistics equal to 0 — the guarded division (`length || 1`) and the
defaulted out-of-range lookups (`?? 0`) produce 0, never `NaN`. -/
theorem chamferDistance_empty_empty (sqrtF : ℚ → ℚ) :
    chamferDistance sqrtF [] [] =
      { meanAB := JQ.num 0, meanBA := JQ.num 0, p95AB := JQ.num 0,
        p95BA := JQ.num 0, maxAB := JQ.num 0, maxBA := JQ.num 0 } := by
  have h : oneWay sqrtF [] [] =
      { mean := JQ.num 0, p95 := JQ.num 0, max := JQ.num 0 } := by
    simp only [oneWay, List.map_nil, List.insertionSort, List.length_nil, List.foldl_nil,
      List.getD, Nat.min_def]
    norm_num [JQ.div]
  simp only [chamferDistance, h]

/-! ## Claim C6 — binary-format sniffing -/

set_option maxRecDepth 4000 in
/-- C6 counterexample: this buffer has length `134 = 84 + 50 × 1`, yet it is
not classified as binary, because its embedded little-endian count at
offset 80 is 2 (so the computed expected size is 184 ≠ 134). -/
theorem isBinaryStl_formula_length_not_binary :
    isBinaryStl (List.replicate 80 0 ++ [2, 0, 0, 0] ++ List.replicate 50 7) = false ∧
      (List.replicate 80 (0 : ℕ) ++ [2, 0, 0, 0] ++ List.replicate 50 7).length =
        84 + 50 * 1 := by
  constructor
  · decide
  · decide

/-- C6 (amended): a buffer is classified as binary exactly when it is at
least 84 bytes long and its length is exactly `84 + 50 × count` for the
little-endian `uint32` count embedded at offset 80.  In particular a buffer
of length 83 (or any length below 84), and any buffer whose length does not
equal `84 + 50 × (embedded count)`, is not classified as binary. -/
theorem isBinaryStl_iff (buf : List ℕ) :
    isBinaryStl buf = true ↔
      84 ≤ buf.length ∧ buf.length = 84 + getUint32LE buf 80 * 50 := by
  unfold isBinaryStl isLikelyBinaryStl
  by_cases h : buf.length < 84
  · simp [h]
  · simp only [h, if_false, beq_iff_eq]
    constructor
    · intro he
      exact ⟨by omega, he.symm⟩
    · intro ⟨_, he⟩
      exact he.symm

set_option maxRecDepth 4000 in
/-- C6 witness: a buffer of length `84 + 50 × 1` whose embedded count is 1
is classified as binary. -/
theorem isBinaryStl_iff_witness :
    isBinaryStl (List.replicate 80 0 ++ [1, 0, 0, 0] ++ List.replicate 50 7) = true :=
  (isBinaryStl_iff _).mpr (by decide)

/-! ## Claim C4 — binary STL decoding -/

theorem isLikelyBinaryStl_eq_true_iff (n : ℕ) (buf : List ℕ) :
    isLikelyBinaryStl n buf = true ↔
      84 ≤ n ∧ 84 + getUint32LE buf 80 * 50 = n := by
  unfold isLikelyBinaryStl
  by_cases h : n < 84
  · simp [h]
  · simp only [h, if_false, beq_iff_eq]
    constructor
    · intro he
      exact ⟨by omega, he⟩
    · intro ⟨_, he⟩
      exact he

/-- C4: binary decoding errors exactly when the buffer is shorter than 84
bytes or `84 + 50 × count` (count read little-endian at offset 80) differs
from the buffer length; otherwise it succeeds with exactly `count`
triangles in file order, each normal and vertex read as three consecutive
little-endian 32-bit floats at the layout offsets — no triangle dropped, and
no partial result on failure (the error case returns no triangles at all). -/
theorem parseBinaryStl_spec (f32 : List ℕ → ℕ → ℚ) (buf : List ℕ) :
    ((∃ e, parseBinaryStl f32 buf = .error e) ↔
      (buf.length < 84 ∨ 84 + getUint32LE buf 80 * 50 ≠ buf.length)) ∧
    ∀ tris, parseBinaryStl f32 buf = .ok tris →
      tris.length = getUint32LE buf 80 ∧
      ∀ i, i < getUint32LE buf 80 →
        tris.getD i default =
          { normal := readFloat3 f32 buf (84 + 50 * i),
            v0 := readFloat3 f32 buf (84 + 50 * i + 12),
            v1 := readFloat3 f32 buf (84 + 50 * i + 24),
            v2 := readFloat3 f32 buf (84 + 50 * i + 36) } := by
  by_cases h84 : buf.length < 84
  · have herr : parseBinaryStl f32 buf = .error "File too small to be a valid binary STL." := by
      unfold parseBinaryStl
      rw [if_pos h84]
    refine ⟨⟨fun _ => Or.inl h84, fun _ => ⟨_, herr⟩⟩, ?_⟩
    intro tris htris
    rw [herr] at htris
    cases htris
  · by_cases hsz : 84 + getUint32LE buf 80 * 50 = buf.length
    · have hl : isLikelyBinaryStl buf.length buf = true :=
        (isLikelyBinaryStl_eq_true_iff _ _).mpr ⟨by omega, hsz⟩
      have hok : parseBinaryStl f32 buf =
          .ok ((List.range (getUint32LE buf 80)).map fun i =>
            { normal := readFloat3 f32 buf (84 + 50 * i),
              v0 := readFloat3 f32 buf (84 + 50 * i + 12),
              v1 := readFloat3 f32 buf (84 + 50 * i + 24),
              v2 := readFloat3 f32 buf (84 + 50 * i + 36) }) := by
        unfold parseBinaryStl
        rw [if_neg h84, if_neg (by simp [hl])]
      constructor
      · constructor
        · intro ⟨e, he⟩
          rw [hok] at he
          cases he
        · intro h
          rcases h with h | h
          · exact absurd h h84
          · exact absurd hsz h
      · intro tris htris
        rw [hok] at htris
        injection htris with htris
        subst htris
        refine ⟨by simp, ?_⟩
        intro i hi
        rw [List.getD_eq_getElem _ _ (by simpa using hi)]
        simp
    · have hl : ¬ isLikelyBinaryStl buf.length buf = true := by
        rw [isLikelyBinaryStl_eq_true_iff]
        exact fun ⟨_, he⟩ => hsz he
      have herr : parseBinaryStl f32 buf =
          .error "Input does not look like a binary STL (size/count mismatch)." := by
        unfold parseBinaryStl
        rw [if_neg h84, if_pos (by simpa using hl)]
      refine ⟨⟨fun _ => Or.inr hsz, fun _ => ⟨_, herr⟩⟩, ?_⟩
      intro tris htris
      rw [herr] at htris
      cases htris

/-- C4 witness: an 83-byte buffer is rejected. -/
theorem parseBinaryStl_spec_witness :
    ∃ e, parseBinaryStl (fun _ _ => 0) (List.replicate 83 0) = Except.error e :=
  (parseBinaryStl_spec (fun _ _ => 0) (List.replicate 83 0)).1.mpr (Or.inl (by decide))

/-! ## Claim C7 — sample count of the surface sampler -/

/-- C7: `sampleSurfacePoints` returns exactly `N` points when `N > 0` and
the mesh is non-empty, and the empty sequence when `N ≤ 0` or the mesh has
no triangles. -/
theorem sampleSurfacePoints_length (sqrtF : ℚ → ℚ) (rng : ℕ → ℚ)
    (triangles : List Triangle) (sampleCount : ℤ) :
    (triangles ≠ [] → 0 < sampleCount →
      ((sampleSurfacePoints sqrtF rng triangles sampleCount).length : ℤ) = sampleCount) ∧
    (triangles = [] ∨ sampleCount ≤ 0 →
      sampleSurfacePoints sqrtF rng triangles sampleCount = []) := by
  constructor
  · intro hne hpos
    have hcond : ¬ (triangles.length = 0 ∨ sampleCount ≤ 0) := by
      push_neg
      exact ⟨fun h => hne (List.length_eq_zero.mp h), hpos⟩
    simp only [sampleSurfacePoints]
    rw [if_neg hcond]
    simp [Int.toNat_of_nonneg hpos.le]
  · intro h
    have hcond : triangles.length = 0 ∨ sampleCount ≤ 0 := by
      rcases h with h | h
      · exact Or.inl (by simp [h])
      · exact Or.inr h
    simp only [sampleSurfacePoints]
    rw [if_pos hcond]

/-- C7 witness: a one-triangle mesh sampled twice yields two points, and an
empty mesh yields the empty sequence. -/
theorem sampleSurfacePoints_length_witness :
    ((sampleSurfacePoints id (fun _ => 0)
        [{ normal := ⟨0, 0, 0⟩, v0 := ⟨0, 0, 0⟩, v1 := ⟨1, 0, 0⟩, v2 := ⟨0, 1, 0⟩ }]
        2).length : ℤ) = 2 ∧
      sampleSurfacePoints id (fun _ => 0) ([] : List Triangle) 5 = [] :=
  ⟨(sampleSurfacePoints_length id (fun _ => 0) _ 2).1 (by simp) (by decide),
   (sampleSurfacePoints_length id (fun _ => 0) [] 5).2 (Or.inl rfl)⟩

/-! ## Claim C2 — AABB IoU of a box with itself -/

/-- C2 counterexample: the one-triangle mesh with vertices
`(0,0,0), (1,0,0), (0,1,0)` is non-empty, but its bounding box is flat
(zero extent in z), so the union volume is 0 and `aabbIou` returns 0,
not 1. -/
theorem aabbIou_self_flat_ne_one :
    aabbIou
        (aabbOfTriangles
          [{ normal := ⟨0, 0, 0⟩, v0 := ⟨0, 0, 0⟩, v1 := ⟨1, 0, 0⟩, v2 := ⟨0, 1, 0⟩ }])
        (aabbOfTriangles
          [{ normal := ⟨0, 0, 0⟩, v0 := ⟨0, 0, 0⟩, v1 := ⟨1, 0, 0⟩, v2 := ⟨0, 1, 0⟩ }]) =
      JQ.num 0 ∧
    ([{ normal := ⟨0, 0, 0⟩, v0 := ⟨0, 0, 0⟩, v1 := ⟨1, 0, 0⟩, v2 := ⟨0, 1, 0⟩ }] :
        List Triangle) ≠ [] := by
  refine ⟨?_, by simp⟩
  norm_num [aabbIou, aabbIntersection, aabbOfTriangles, aabbVolume, triVerts, updBox,
    updMin, updMax, emptyBox, JQ.maxJ, JQ.minJ, JQ.ltb, JQ.sub, JQ.mul, JQ.add, JQ.div]

/-- C2 (amended): for every non-empty mesh whose axis-aligned bounding box
has positive volume, the IoU of the box with itself is 1.  (For a non-empty
mesh whose box is degenerate — flat on some axis — the union volume is 0 and
the source returns the 0 sentinel instead.) -/
theorem aabbIou_self (tris : List Triangle) (h : tris ≠ [])
    (hvol : JQ.ltb (JQ.num 0) (aabbVolume (aabbOfTriangles tris)) = true) :
    aabbIou (aabbOfTriangles tris) (aabbOfTriangles tris) = JQ.num 1 := by
  obtain ⟨mn, mx, hbox, _, hxx, hyy, hzz⟩ := aabbOf_nonempty tris h
  set box := aabbOfTriangles tris with hb
  have hvolval : aabbVolume box =
      JQ.num (max 0 (mx.x - mn.x) * max 0 (mx.y - mn.y) * max 0 (mx.z - mn.z)) := by
    rw [hbox]
    simp [aabbVolume]
  have hinter : aabbIntersection box box = some box := by
    rw [hbox]
    simp only [aabbIntersection, JQ.maxJ_num, JQ.minJ_num, max_self, min_self,
      JQ.ltb_num]
    simp [not_lt.mpr hxx, not_lt.mpr hyy, not_lt.mpr hzz]
  have hpos : 0 < max 0 (mx.x - mn.x) * max 0 (mx.y - mn.y) * max 0 (mx.z - mn.z) := by
    rw [hvolval] at hvol
    simpa using hvol
  unfold aabbIou
  rw [hinter]
  simp only [hvolval, JQ.add_num, JQ.sub_num, JQ.ltb_num]
  have harith : max 0 (mx.x - mn.x) * max 0 (mx.y - mn.y) * max 0 (mx.z - mn.z) +
      max 0 (mx.x - mn.x) * max 0 (mx.y - mn.y) * max 0 (mx.z - mn.z) -
      max 0 (mx.x - mn.x) * max 0 (mx.y - mn.y) * max 0 (mx.z - mn.z) =
      max 0 (mx.x - mn.x) * max 0 (mx.y - mn.y) * max 0 (mx.z - mn.z) := by ring
  rw [harith]
  simp only [decide_eq_true_eq, hpos, if_true]
  rw [JQ.div_num_of_ne _ hpos.ne.symm]
  simp [div_self hpos.ne.symm]

/-- C2 witness: a single non-planar triangle whose box has volume 1. -/
theorem aabbIou_self_witness :
    aabbIou
        (aabbOfTriangles
          [{ normal := ⟨0, 0, 0⟩, v0 := ⟨0, 0, 0⟩, v1 := ⟨1, 1, 0⟩, v2 := ⟨0, 1, 1⟩ }])
        (aabbOfTriangles
          [{ normal := ⟨0, 0, 0⟩, v0 := ⟨0, 0, 0⟩, v1 := ⟨1, 1, 0⟩, v2 := ⟨0, 1, 1⟩ }]) =
      JQ.num 1 :=
  aabbIou_self _ (by simp)
    (by norm_num [aabbOfTriangles, aabbVolume, triVerts, updBox, updMin, updMax,
      emptyBox, JQ.maxJ, JQ.minJ, JQ.ltb, JQ.sub, JQ.mul])

/-! ## Claim C1 — the Chamfer statistics -/

theorem foldl_minstep_num (f : Vec3 → ℚ) (rest : List Vec3) (m : ℚ) :
    rest.foldl
        (fun best q => if JQ.ltb (JQ.num (f q)) best then JQ.num (f q) else best)
        (JQ.num m) =
      JQ.num (rest.foldl (fun m q => min m (f q)) m) := by
  induction rest generalizing m with
  | nil => rfl
  | cons q rest ih =>
      rcases lt_or_ge (f q) m with h | h
      · have h1 : JQ.ltb (JQ.num (f q)) (JQ.num m) = true := by simp [h]
        have h2 : min m (f q) = f q := min_eq_right h.le
        simp only [List.foldl_cons, h1, if_true, h2]
        exact ih (f q)
      · have h1 : JQ.ltb (JQ.num (f q)) (JQ.num m) = false := by simp [not_lt.mpr h]
        have h2 : min m (f q) = m := min_eq_left h
        simp only [List.foldl_cons, h1, Bool.false_eq_true, if_false, h2]
        exact ih m

theorem minSqDist_cons (p q : Vec3) (rest : List Vec3) :
    minSqDist p (q :: rest) =
      JQ.num (rest.foldl (fun m q2 => min m (squaredDistance p q2)) (squaredDistance p q)) := by
  have h0 : minSqDist p (q :: rest) =
      rest.foldl
        (fun best q2 =>
          if JQ.ltb (JQ.num (squaredDistance p q2)) best then JQ.num (squaredDistance p q2)
          else best)
        (JQ.num (squaredDistance p q)) := by
    simp [minSqDist, JQ.ltb]
  rw [h0, foldl_minstep_num]

theorem squaredDistance_nonneg (p q : Vec3) : 0 ≤ squaredDistance p q :=
  add_nonneg (add_nonneg (mul_self_nonneg _) (mul_self_nonneg _)) (mul_self_nonneg _)

theorem foldl_min_nonneg (f : Vec3 → ℚ) (hf : ∀ q, 0 ≤ f q) (rest : List Vec3)
    {a : ℚ} (ha : 0 ≤ a) : 0 ≤ rest.foldl (fun m q => min m (f q)) a := by
  induction rest generalizing a with
  | nil => exact ha
  | cons q rest ih => exact ih (le_min ha (hf q))

theorem monotone_foldl_min (sqrtF : ℚ → ℚ) (hm : Monotone sqrtF) (f : Vec3 → ℚ)
    (rest : List Vec3) (a : ℚ) :
    sqrtF (rest.foldl (fun m q => min m (f q)) a) =
      rest.foldl (fun m q => min m (sqrtF (f q))) (sqrtF a) := by
  induction rest generalizing a with
  | nil => rfl
  | cons q rest ih =>
      have := ih (min a (f q))
      rw [List.foldl_cons, List.foldl_cons, ← hm.map_min, this]

/-- One entry of the `mins` array is exactly the spec-side minimum Euclidean
distance, for a non-empty target set and a monotone square root. -/
theorem sqrt_minSqDist_eq (sqrtF : ℚ → ℚ) (hm : Monotone sqrtF) (p : Vec3)
    {b : List Vec3} (hb : b ≠ []) :
    JQ.sqrt sqrtF (minSqDist p b) = JQ.num (specMinEuclidDist sqrtF p b) := by
  obtain ⟨q, rest, rfl⟩ := List.exists_cons_of_ne_nil hb
  rw [minSqDist_cons]
  rw [JQ.sqrt_num_of_nonneg sqrtF
    (foldl_min_nonneg _ (squaredDistance_nonneg p) _ (squaredDistance_nonneg p q))]
  rw [monotone_foldl_min sqrtF hm]
  rfl

@[simp] theorem sle_num (a b : ℚ) : JQ.sle (JQ.num a) (JQ.num b) ↔ a ≤ b := Iff.rfl

theorem orderedInsert_map_num (a : ℚ) (l : List ℚ) :
    List.orderedInsert JQ.sle (JQ.num a) (l.map JQ.num) =
      (List.orderedInsert (· ≤ ·) a l).map JQ.num := by
  induction l with
  | nil => rfl
  | cons b l ih =>
      by_cases h : a ≤ b
      · simp [List.orderedInsert, h]
      · simp [List.orderedInsert, h, ih]

theorem insertionSort_map_num (l : List ℚ) :
    List.insertionSort JQ.sle (l.map JQ.num) =
      (List.insertionSort (· ≤ ·) l).map JQ.num := by
  induction l with
  | nil => rfl
  | cons a l ih => simp [List.insertionSort, ih, orderedInsert_map_num]

theorem foldl_add_map_num (l : List ℚ) (s : ℚ) :
    (l.map JQ.num).foldl JQ.add (JQ.num s) = JQ.num (l.foldl (· + ·) s) := by
  induction l generalizing s with
  | nil => rfl
  | cons a l ih => simpa using ih (s + a)

theorem foldl_add_rat (l : List ℚ) (c : ℚ) : l.foldl (· + ·) c = c + l.sum := by
  induction l generalizing c with
  | nil => simp
  | cons a l ih =>
      rw [List.foldl_cons, ih (c + a), List.sum_cons]
      ring

theorem getD_map_num (l : List ℚ) (i : ℕ) :
    (l.map JQ.num).getD i (JQ.num 0) = JQ.num (l.getD i 0) := by
  by_cases h : i < l.length
  · rw [List.getD_eq_getElem _ _ (by simpa using h), List.getD_eq_getElem _ _ h]
    simp
  · rw [List.getD_eq_default _ _ (by simp; omega), List.getD_eq_default _ _ (by omega)]

/-- The `oneWay` record, computed in terms of the sorted spec-side distance
list, for non-empty source and target and a monotone square root. -/
theorem oneWay_spec (sqrtF : ℚ → ℚ) (hm : Monotone sqrtF) (a b : List Vec3)
    (ha : a ≠ []) (hb : b ≠ []) :
    oneWay sqrtF a b =
      { mean := JQ.num
          ((List.insertionSort (· ≤ ·) (a.map fun p => specMinEuclidDist sqrtF p b)).sum /
            (a.length : ℚ)),
        p95 := JQ.num
          ((List.insertionSort (· ≤ ·) (a.map fun p => specMinEuclidDist sqrtF p b)).getD
            (min (a.length - 1) (19 * a.length / 20)) 0),
        max := JQ.num
          ((List.insertionSort (· ≤ ·) (a.map fun p => specMinEuclidDist sqrtF p b)).getD
            (a.length - 1) 0) } := by
  have hmins : (a.map fun p => JQ.sqrt sqrtF (minSqDist p b)) =
      (a.map fun p => specMinEuclidDist sqrtF p b).map JQ.num := by
    rw [List.map_map]
    exact List.map_congr_left fun p _ => sqrt_minSqDist_eq sqrtF hm p hb
  have hlen : a.length ≠ 0 := fun h => ha (List.length_eq_zero.mp h)
  simp only [oneWay]
  rw [hmins, insertionSort_map_num]
  have hsum : ((List.insertionSort (· ≤ ·)
        (a.map fun p => specMinEuclidDist sqrtF p b)).map JQ.num).foldl JQ.add (JQ.num 0) =
      JQ.num ((List.insertionSort (· ≤ ·) (a.map fun p => specMinEuclidDist sqrtF p b)).sum) := by
    rw [foldl_add_map_num, foldl_add_rat]
    norm_num
  rw [hsum]
  have hdiv : JQ.div
      (JQ.num ((List.insertionSort (· ≤ ·) (a.map fun p => specMinEuclidDist sqrtF p b)).sum))
      (JQ.num (if a.length = 0 then 1 else (a.length : ℚ))) =
      JQ.num ((List.insertionSort (· ≤ ·) (a.map fun p => specMinEuclidDist sqrtF p b)).sum /
        (a.length : ℚ)) := by
    rw [if_neg hlen]
    exact JQ.div_num_of_ne _ (Nat.cast_ne_zero.mpr hlen)
  rw [hdiv, getD_map_num, getD_map_num]

/-- C1: for non-empty point clouds `A` and `B` (and `Math.sqrt` monotone, as
it is), `chamferDistance` reports, in each direction, statistics of the
ascending sort of the per-source-point minimum Euclidean distances to the
target set: the mean is their arithmetic average, the `p95` is the sorted
value at index `floor(0.95 × count)` clamped to the last valid index, and
the max is the last sorted value. -/
theorem chamferDistance_spec (sqrtF : ℚ → ℚ) (A B : List Vec3)
    (hA : A ≠ []) (hB : B ≠ []) (hmono : Monotone sqrtF) :
    List.Sorted (· ≤ ·) (List.insertionSort (· ≤ ·) (A.map fun p => specMinEuclidDist sqrtF p B)) ∧
    (List.insertionSort (· ≤ ·) (A.map fun p => specMinEuclidDist sqrtF p B)).Perm
      (A.map fun p => specMinEuclidDist sqrtF p B) ∧
    List.Sorted (· ≤ ·) (List.insertionSort (· ≤ ·) (B.map fun p => specMinEuclidDist sqrtF p A)) ∧
    (List.insertionSort (· ≤ ·) (B.map fun p => specMinEuclidDist sqrtF p A)).Perm
      (B.map fun p => specMinEuclidDist sqrtF p A) ∧
    chamferDistance sqrtF A B =
      { meanAB := JQ.num
          ((List.insertionSort (· ≤ ·) (A.map fun p => specMinEuclidDist sqrtF p B)).sum /
            (A.length : ℚ)),
        meanBA := JQ.num
          ((List.insertionSort (· ≤ ·) (B.map fun p => specMinEuclidDist sqrtF p A)).sum /
            (B.length : ℚ)),
        p95AB := JQ.num
          ((List.insertionSort (· ≤ ·) (A.map fun p => specMinEuclidDist sqrtF p B)).getD
            (min (A.length - 1) (19 * A.length / 20)) 0),
        p95BA := JQ.num
          ((List.insertionSort (· ≤ ·) (B.map fun p => specMinEuclidDist sqrtF p A)).getD
            (min (B.length - 1) (19 * B.length / 20)) 0),
        maxAB := JQ.num
          ((List.insertionSort (· ≤ ·) (A.map fun p => specMinEuclidDist sqrtF p B)).getD
            (A.length - 1) 0),
        maxBA := JQ.num
          ((List.insertionSort (· ≤ ·) (B.map fun p => specMinEuclidDist sqrtF p A)).getD
            (B.length - 1) 0) } ∧
    (List.insertionSort (· ≤ ·) (A.map fun p => specMinEuclidDist sqrtF p B)).getLast? =
      some ((List.insertionSort (· ≤ ·) (A.map fun p => specMinEuclidDist sqrtF p B)).getD
        (A.length - 1) 0) ∧
    (List.insertionSort (· ≤ ·) (B.map fun p => specMinEuclidDist sqrtF p A)).getLast? =
      some ((List.insertionSort (· ≤ ·) (B.map fun p => specMinEuclidDist sqrtF p A)).getD
        (B.length - 1) 0) := by
  have hlast : ∀ (l : List Vec3) (l2 : List Vec3), l ≠ [] →
      (List.insertionSort (· ≤ ·) (l.map fun p => specMinEuclidDist sqrtF p l2)).getLast? =
        some ((List.insertionSort (· ≤ ·) (l.map fun p => specMinEuclidDist sqrtF p l2)).getD
          (l.length - 1) 0) := by
    intro l l2 hl
    have hl0 : l.length ≠ 0 := fun h => hl (List.length_eq_zero.mp h)
    have hlen : (List.insertionSort (· ≤ ·)
        (l.map fun p => specMinEuclidDist sqrtF p l2)).length = l.length := by simp
    have hne : List.insertionSort (· ≤ ·) (l.map fun p => specMinEuclidDist sqrtF p l2) ≠ [] := by
      intro h
      rw [h] at hlen
      exact hl0 hlen.symm
    rw [List.getLast?_eq_getLast_of_ne_nil hne, List.getLast_eq_getElem,
      List.getD_eq_getElem _ _ (by rw [hlen]; omega)]
    simp only [hlen]
  refine ⟨List.sorted_insertionSort _ _, List.perm_insertionSort _ _,
    List.sorted_insertionSort _ _, List.perm_insertionSort _ _, ?_,
    hlast A B hA, hlast B A hB⟩
  unfold chamferDistance
  rw [oneWay_spec sqrtF hmono A B hA hB, oneWay_spec sqrtF hmono B A hB hA]

/-- C1 witness: two one-point clouds (with `sqrtF = id`, which is
monotone). -/
theorem chamferDistance_spec_witness :
    List.Sorted (· ≤ ·)
      (List.insertionSort (· ≤ ·)
        (([⟨0, 0, 0⟩] : List Vec3).map fun p => specMinEuclidDist id p [⟨3, 0, 0⟩])) :=
  (chamferDistance_spec id [⟨0, 0, 0⟩] [⟨3, 0, 0⟩] (by simp) (by simp) monotone_id).1

/-! ## Claim C9 — sampled points are convex combinations inside the mesh -/

theorem binSearch_le_of_le (cum : List ℚ) (r : ℚ) :
    ∀ (n lo hi : ℕ), hi - lo ≤ n → lo ≤ hi → binSearch cum r lo hi ≤ hi := by
  intro n
  induction n with
  | zero =>
      intro lo hi hle hlo
      rw [binSearch]
      have : ¬ lo < hi := by omega
      simp [this, hlo]
  | succ n ih =>
      intro lo hi hle hlo
      rw [binSearch]
      by_cases h : lo < hi
      · simp only [h, dif_pos]
        have hmid : (lo + hi) / 2 < hi := by omega
        by_cases hr : r ≤ cum.getD ((lo + hi) / 2) 0
        · simp only [hr, if_pos]
          exact le_trans (ih lo ((lo + hi) / 2) (by omega) (by omega)) hmid.le
        · simp only [hr, if_neg, not_false_iff]
          exact ih ((lo + hi) / 2 + 1) hi (by omega) (by omega)
      · simp [h, hlo]

theorem pickTriangleIndex_lt (cum : List ℚ) (n : ℕ) (u : ℚ) (hn : 0 < n) :
    pickTriangleIndex cum n u < n := by
  have h := binSearch_le_of_le cum (u * cum.getD (n - 1) 0) (n - 1) 0 (n - 1)
    (by omega) (by omega)
  show binSearch cum (u * cum.getD (n - 1) 0) 0 (n - 1) < n
  omega

theorem convex_combo_bounds {u v w a b c mn mx : ℚ} (hu : 0 ≤ u) (hv : 0 ≤ v)
    (hw : 0 ≤ w) (hsum : u + v + w = 1) (ha1 : mn ≤ a) (ha2 : a ≤ mx)
    (hb1 : mn ≤ b) (hb2 : b ≤ mx) (hc1 : mn ≤ c) (hc2 : c ≤ mx) :
    mn ≤ u * a + v * b + w * c ∧ u * a + v * b + w * c ≤ mx := by
  have h1 : u * mn ≤ u * a := mul_le_mul_of_nonneg_left ha1 hu
  have h2 : v * mn ≤ v * b := mul_le_mul_of_nonneg_left hb1 hv
  have h3 : w * mn ≤ w * c := mul_le_mul_of_nonneg_left hc1 hw
  have h4 : u * mn + v * mn + w * mn = mn := by
    have h5 : (u + v + w) * mn = mn := by rw [hsum, one_mul]
    linear_combination h5
  have g1 : u * a ≤ u * mx := mul_le_mul_of_nonneg_left ha2 hu
  have g2 : v * b ≤ v * mx := mul_le_mul_of_nonneg_left hb2 hv
  have g3 : w * c ≤ w * mx := mul_le_mul_of_nonneg_left hc2 hw
  have g4 : u * mx + v * mx + w * mx = mx := by
    have g5 : (u + v + w) * mx = mx := by rw [hsum, one_mul]
    linear_combination g5
  exact ⟨by linarith, by linarith⟩

/-- C9: every point produced by `sampleSurfacePoints` (for a random source
with values in `[0,1)` and `Math.sqrt` mapping `[0,1)` into `[0,1]`) is a
convex combination of the three vertices of some triangle of the mesh —
barycentric weights non-negative and summing to 1 — and lies inside the
mesh's axis-aligned bounding box. -/
theorem sampleSurfacePoints_in_mesh (sqrtF : ℚ → ℚ) (rng : ℕ → ℚ)
    (tris : List Triangle) (sampleCount : ℤ)
    (hrng : ∀ i, 0 ≤ rng i ∧ rng i < 1)
    (hsq : ∀ x : ℚ, 0 ≤ x → x < 1 → 0 ≤ sqrtF x ∧ sqrtF x ≤ 1)
    (htris : tris ≠ []) (hN : 0 < sampleCount) :
    ∀ p ∈ sampleSurfacePoints sqrtF rng tris sampleCount,
      (∃ t ∈ tris, ∃ u v w : ℚ, 0 ≤ u ∧ 0 ≤ v ∧ 0 ≤ w ∧ u + v + w = 1 ∧
        p = ⟨u * t.v0.x + v * t.v1.x + w * t.v2.x,
             u * t.v0.y + v * t.v1.y + w * t.v2.y,
             u * t.v0.z + v * t.v1.z + w * t.v2.z⟩) ∧
      ∃ mn mx : Vec3,
        aabbOfTriangles tris =
          ⟨⟨JQ.num mn.x, JQ.num mn.y, JQ.num mn.z⟩,
           ⟨JQ.num mx.x, JQ.num mx.y, JQ.num mx.z⟩⟩ ∧
        mn.x ≤ p.x ∧ p.x ≤ mx.x ∧ mn.y ≤ p.y ∧ p.y ≤ mx.y ∧ mn.z ≤ p.z ∧ p.z ≤ mx.z := by
  intro p hp
  have hcond : ¬ (tris.length = 0 ∨ sampleCount ≤ 0) := by
    push_neg
    exact ⟨fun h => htris (List.length_eq_zero.mp h), hN⟩
  simp only [sampleSurfacePoints] at hp
  rw [if_neg hcond] at hp
  simp only [List.mem_map, List.mem_range] at hp
  obtain ⟨i, _, hpeq⟩ := hp
  set idx := pickTriangleIndex (cumWeights sqrtF tris) tris.length (rng (3 * i)) with hidxdef
  have hlen0 : 0 < tris.length := List.length_pos.mpr htris
  have hidx : idx < tris.length := pickTriangleIndex_lt _ _ _ hlen0
  set t := tris.getD idx default with htdef
  have htmem : t ∈ tris := by
    rw [htdef, List.getD_eq_getElem _ _ hidx]
    exact List.getElem_mem _
  have hu1 := hrng (3 * i + 1)
  have hu2 := hrng (3 * i + 2)
  have hr1 := hsq (rng (3 * i + 1)) hu1.1 hu1.2
  set r1 := sqrtF (rng (3 * i + 1)) with hr1def
  set r2 := rng (3 * i + 2) with hr2def
  have hu : 0 ≤ 1 - r1 := by linarith [hr1.2]
  have hv : 0 ≤ r1 * (1 - r2) := mul_nonneg hr1.1 (by linarith [hu2.2])
  have hw : 0 ≤ r1 * r2 := mul_nonneg hr1.1 hu2.1
  have hsum : (1 - r1) + r1 * (1 - r2) + r1 * r2 = 1 := by ring
  have hpval : p = ⟨(1 - r1) * t.v0.x + r1 * (1 - r2) * t.v1.x + r1 * r2 * t.v2.x,
      (1 - r1) * t.v0.y + r1 * (1 - r2) * t.v1.y + r1 * r2 * t.v2.y,
      (1 - r1) * t.v0.z + r1 * (1 - r2) * t.v1.z + r1 * r2 * t.v2.z⟩ := by
    rw [← hpeq]
    rfl
  obtain ⟨mn, mx, hbox, hbounds, _, _, _⟩ := aabbOf_nonempty tris htris
  have hverts := mem_meshVerts htmem
  have hb0 := hbounds t.v0 hverts.1
  have hb1 := hbounds t.v1 hverts.2.1
  have hb2 := hbounds t.v2 hverts.2.2
  refine ⟨⟨t, htmem, 1 - r1, r1 * (1 - r2), r1 * r2, hu, hv, hw, hsum, hpval⟩,
    mn, mx, hbox, ?_, ?_, ?_, ?_, ?_, ?_⟩
  · rw [hpval]
    exact (convex_combo_bounds hu hv hw hsum hb0.1 hb0.2.1 hb1.1 hb1.2.1 hb2.1 hb2.2.1).1
  · rw [hpval]
    exact (convex_combo_bounds hu hv hw hsum hb0.1 hb0.2.1 hb1.1 hb1.2.1 hb2.1 hb2.2.1).2
  · rw [hpval]
    exact (convex_combo_bounds hu hv hw hsum hb0.2.2.1 hb0.2.2.2.1 hb1.2.2.1 hb1.2.2.2.1
      hb2.2.2.1 hb2.2.2.2.1).1
  · rw [hpval]
    exact (convex_combo_bounds hu hv hw hsum hb0.2.2.1 hb0.2.2.2.1 hb1.2.2.1 hb1.2.2.2.1
      hb2.2.2.1 hb2.2.2.2.1).2
  · rw [hpval]
    exact (convex_combo_bounds hu hv hw hsum hb0.2.2.2.2.1 hb0.2.2.2.2.2 hb1.2.2.2.2.1
      hb1.2.2.2.2.2 hb2.2.2.2.2.1 hb2.2.2.2.2.2).1
  · rw [hpval]
    exact (convex_combo_bounds hu hv hw hsum hb0.2.2.2.2.1 hb0.2.2.2.2.2 hb1.2.2.2.2.1
      hb1.2.2.2.2.2 hb2.2.2.2.2.1 hb2.2.2.2.2.2).2

/-- C9 witness: a one-triangle mesh, one sample, the zero random stream and
`sqrtF = id` (which maps `[0,1)` into `[0,1]`). -/
theorem sampleSurfacePoints_in_mesh_witness :
    (∀ i : ℕ, 0 ≤ (fun _ : ℕ => (0 : ℚ)) i ∧ (fun _ : ℕ => (0 : ℚ)) i < 1) ∧
    (∀ x : ℚ, 0 ≤ x → x < 1 → 0 ≤ id x ∧ id x ≤ 1) ∧
    ([({ normal := ⟨0, 0, 0⟩, v0 := ⟨0, 0, 0⟩, v1 := ⟨1, 0, 0⟩, v2 := ⟨0, 1, 0⟩ } : Triangle)] ≠
      ([] : List Triangle)) ∧
    (0 : ℤ) < 1 ∧
    (∀ p ∈ sampleSurfacePoints id (fun _ => 0)
        [{ normal := ⟨0, 0, 0⟩, v0 := ⟨0, 0, 0⟩, v1 := ⟨1, 0, 0⟩, v2 := ⟨0, 1, 0⟩ }] 1,
      (∃ t ∈ [({ normal := ⟨0, 0, 0⟩, v0 := ⟨0, 0, 0⟩, v1 := ⟨1, 0, 0⟩, v2 := ⟨0, 1, 0⟩ } : Triangle)],
        ∃ u v w : ℚ, 0 ≤ u ∧ 0 ≤ v ∧ 0 ≤ w ∧ u + v + w = 1 ∧
        p = ⟨u * t.v0.x + v * t.v1.x + w * t.v2.x,
             u * t.v0.y + v * t.v1.y + w * t.v2.y,
             u * t.v0.z + v * t.v1.z + w * t.v2.z⟩) ∧
      ∃ mn mx : Vec3,
        aabbOfTriangles
            [{ normal := ⟨0, 0, 0⟩, v0 := ⟨0, 0, 0⟩, v1 := ⟨1, 0, 0⟩, v2 := ⟨0, 1, 0⟩ }] =
          ⟨⟨JQ.num mn.x, JQ.num mn.y, JQ.num mn.z⟩,
           ⟨JQ.num mx.x, JQ.num mx.y, JQ.num mx.z⟩⟩ ∧
        mn.x ≤ p.x ∧ p.x ≤ mx.x ∧ mn.y ≤ p.y ∧ p.y ≤ mx.y ∧ mn.z ≤ p.z ∧ p.z ≤ mx.z) :=
  ⟨fun _ => by norm_num, fun x h1 h2 => ⟨h1, le_of_lt h2⟩, by simp, by norm_num,
    sampleSurfacePoints_in_mesh id (fun _ => 0) _ 1
      (fun _ => by norm_num)
      (fun x h1 h2 => ⟨h1, le_of_lt h2⟩)
      (by simp) (by norm_num)⟩

/-! ## Claim C5 — the facet-append condition of the text decoder -/

theorem parseLoop_nil : parseLoop [] = [] := by
  simp [parseLoop]

theorem parseLoop_cons_other (l : List Char) (rest : List (List Char))
    (hf : isFacetLine l = false) : parseLoop (l :: rest) = parseLoop rest := by
  simp [parseLoop, hf]

theorem parseLoop_cons_facet (l : List Char) (rest : List (List Char))
    (hf : isFacetLine l = true) :
    parseLoop (l :: rest) =
      (if (blockVerts rest).length = 3 then
        [{ normal := parseNormalOfLine l,
           v0 := (blockVerts rest).getD 0 default,
           v1 := (blockVerts rest).getD 1 default,
           v2 := (blockVerts rest).getD 2 default }]
       else []) ++ parseLoop (blockRest rest) := by
  simp [parseLoop, hf]

theorem takeVerts_fst_length_eq_iff (k : ℕ) (ls : List (List Char)) :
    (takeVerts k ls).1.length = k ↔
      ((ls.take k).length = k ∧ ∀ l ∈ ls.take k, isVertexLine l = true) := by
  induction k generalizing ls with
  | zero => simp [takeVerts]
  | succ k ih =>
      cases ls with
      | nil =>
          simp [takeVerts]
      | cons l ls =>
          by_cases h : isVertexLine l = true
          · simp only [takeVerts, h, if_true, List.take_succ_cons, List.length_cons,
              Nat.succ_inj, List.mem_cons]
            rw [ih ls]
            constructor
            · intro ⟨h1, h2⟩
              exact ⟨h1, fun x hx => hx.elim (fun he => he ▸ h) (h2 x)⟩
            · intro ⟨h1, h2⟩
              exact ⟨h1, fun x hx => h2 x (Or.inr hx)⟩
          · simp only [takeVerts, h, Bool.false_eq_true, if_false, List.length_nil,
              List.take_succ_cons, List.length_cons, List.mem_cons]
            constructor
            · intro h0
              omega
            · intro ⟨_, h2⟩
              exact absurd (h2 l (Or.inl rfl)) h


theorem blockVerts_length_eq_three_iff (rest : List (List Char)) :
    (blockVerts rest).length = 3 ↔ firstThreeAreVertexLines rest := by
  unfold blockVerts firstThreeAreVertexLines
  exact takeVerts_fst_length_eq_iff 3 (afterOuterLoop rest)

/-- C5 counterexample: a facet block with four `vertex` lines between the
`outer loop` line and the `endfacet` line still appends a triangle (the
parser reads the first three vertex lines and silently skips the fourth),
so a triangle is appended although the block does not have exactly 3 vertex
lines between the two delimiters. -/
theorem parseAsciiStl_four_vertex_lines_appends :
    (parseAsciiStl "facet normal 0 0 0\nouter loop\nvertex 1 1 1\nvertex 2 2 2\nvertex 3 3 3\nvertex 4 4 4\nendfacet".toList).length = 1 ∧
    (((replaceCRLF "facet normal 0 0 0\nouter loop\nvertex 1 1 1\nvertex 2 2 2\nvertex 3 3 3\nvertex 4 4 4\nendfacet".toList).splitOn '\n').countP
      (fun l => isVertexLine l)) = 4 := by
  constructor
  · have hlines : ((replaceCRLF "facet normal 0 0 0\nouter loop\nvertex 1 1 1\nvertex 2 2 2\nvertex 3 3 3\nvertex 4 4 4\nendfacet".toList).splitOn '\n') =
        "facet normal 0 0 0".toList ::
          ["outer loop".toList, "vertex 1 1 1".toList, "vertex 2 2 2".toList,
           "vertex 3 3 3".toList, "vertex 4 4 4".toList, "endfacet".toList] := rfl
    have hbv : (blockVerts ["outer loop".toList, "vertex 1 1 1".toList,
        "vertex 2 2 2".toList, "vertex 3 3 3".toList, "vertex 4 4 4".toList,
        "endfacet".toList]).length = 3 := rfl
    have hbr : blockRest ["outer loop".toList, "vertex 1 1 1".toList,
        "vertex 2 2 2".toList, "vertex 3 3 3".toList, "vertex 4 4 4".toList,
        "endfacet".toList] = [] := rfl
    show (parseLoop ((replaceCRLF "facet normal 0 0 0\nouter loop\nvertex 1 1 1\nvertex 2 2 2\nvertex 3 3 3\nvertex 4 4 4\nendfacet".toList).splitOn '\n')).length = 1
    rw [hlines,
      parseLoop_cons_facet "facet normal 0 0 0".toList
        ["outer loop".toList, "vertex 1 1 1".toList, "vertex 2 2 2".toList,
         "vertex 3 3 3".toList, "vertex 4 4 4".toList, "endfacet".toList] rfl,
      if_pos hbv, hbr, parseLoop_nil]
    rfl
  · rfl

/-- C5 (amended): the text decoder never raises; a line that does not open a
facet block is skipped; and for a facet block the triangle is appended
exactly when the first three lines after the `outer loop` line each start
with `vertex` — any further vertex lines before `endfacet` are ignored, and
a block whose first three lines are not all vertex lines contributes no
triangle and is silently dropped. -/
theorem parseLoop_append_condition :
    parseLoop [] = [] ∧
    (∀ l rest, isFacetLine l = false → parseLoop (l :: rest) = parseLoop rest) ∧
    (∀ l rest, isFacetLine l = true →
      parseLoop (l :: rest) =
        (if firstThreeAreVertexLines rest then
          [{ normal := parseNormalOfLine l,
             v0 := (blockVerts rest).getD 0 default,
             v1 := (blockVerts rest).getD 1 default,
             v2 := (blockVerts rest).getD 2 default }]
         else []) ++ parseLoop (blockRest rest)) := by
  refine ⟨parseLoop_nil, parseLoop_cons_other, ?_⟩
  intro l rest hf
  rw [parseLoop_cons_facet l rest hf]
  congr 1
  exact if_congr (blockVerts_length_eq_three_iff rest) rfl rfl

/-- C5 witness: a well-formed block (three vertex lines) instantiating the
facet-step equation. -/
theorem parseLoop_append_condition_witness :
    parseLoop ("facet normal 0 0 0".toList ::
        ["outer loop".toList, "vertex 1 1 1".toList, "vertex 2 2 2".toList,
         "vertex 3 3 3".toList, "endfacet".toList]) =
      (if firstThreeAreVertexLines
          ["outer loop".toList, "vertex 1 1 1".toList, "vertex 2 2 2".toList,
           "vertex 3 3 3".toList, "endfacet".toList] then
        [{ normal := parseNormalOfLine "facet normal 0 0 0".toList,
           v0 := (blockVerts ["outer loop".toList, "vertex 1 1 1".toList,
              "vertex 2 2 2".toList, "vertex 3 3 3".toList, "endfacet".toList]).getD 0 default,
           v1 := (blockVerts ["outer loop".toList, "vertex 1 1 1".toList,
              "vertex 2 2 2".toList, "vertex 3 3 3".toList, "endfacet".toList]).getD 1 default,
           v2 := (blockVerts ["outer loop".toList, "vertex 1 1 1".toList,
              "vertex 2 2 2".toList, "vertex 3 3 3".toList, "endfacet".toList]).getD 2 default }]
       else []) ++
        parseLoop (blockRest ["outer loop".toList, "vertex 1 1 1".toList,
          "vertex 2 2 2".toList, "vertex 3 3 3".toList, "endfacet".toList]) :=
  parseLoop_append_condition.2.2 _ _ rfl

/-! ## Claim C8 — round-trip through the ASCII encoder (digit machinery) -/

theorem charDigit_digitChar {d : ℕ} (hd : d < 10) :
    charDigit (Nat.digitChar d) = some d := by
  interval_cases d <;> rfl

theorem digitChar_props {d : ℕ} (hd : d < 10) :
    isWs (Nat.digitChar d) = false ∧ Nat.digitChar d ≠ '\n' ∧ Nat.digitChar d ≠ '\r' ∧
      Nat.digitChar d ≠ '.' ∧ Nat.digitChar d ≠ '-' ∧ Nat.digitChar d ≠ '+' := by
  interval_cases d <;> exact ⟨rfl, by decide, by decide, by decide, by decide, by decide⟩

theorem digitsValGo_acc (l : List Char) :
    ∀ acc : ℕ, digitsValGo l acc =
      (digitsVal l).map (fun v => acc * 10 ^ l.length + v) := by
  induction l with
  | nil => intro acc; simp [digitsVal, digitsValGo]
  | cons c cs ih =>
      intro acc
      cases hc : charDigit c with
      | none => simp [digitsVal, digitsValGo, hc]
      | some d =>
          have h1 : digitsValGo (c :: cs) acc = digitsValGo cs (10 * acc + d) := by
            simp [digitsValGo, hc]
          have h2 : digitsVal (c :: cs) = digitsValGo cs (10 * 0 + d) := by
            simp [digitsVal, digitsValGo, hc]
          rw [h1, h2, ih (10 * acc + d), ih (10 * 0 + d)]
          cases hv : digitsVal cs with
          | none => simp
          | some v =>
              simp only [Option.map_some', List.length_cons]
              congr 1
              ring

theorem digitsValGo_append (xs ys : List Char) (acc : ℕ) :
    digitsValGo (xs ++ ys) acc = (digitsValGo xs acc).bind (fun a => digitsValGo ys a) := by
  induction xs generalizing acc with
  | nil => simp [digitsValGo]
  | cons c cs ih =>
      cases hc : charDigit c with
      | none => simp [digitsValGo, hc]
      | some d => simp [digitsValGo, hc, ih]

theorem digitsVal_append {xs ys : List Char} {a b : ℕ}
    (hx : digitsVal xs = some a) (hy : digitsVal ys = some b) :
    digitsVal (xs ++ ys) = some (a * 10 ^ ys.length + b) := by
  unfold digitsVal at hx ⊢
  rw [digitsValGo_append, hx]
  show digitsValGo ys a = _
  rw [digitsValGo_acc, hy]
  rfl

theorem digitsVal_replicate_zero (k : ℕ) :
    digitsVal (List.replicate k '0') = some 0 := by
  induction k with
  | zero => rfl
  | succ k ih =>
      show digitsValGo ('0' :: List.replicate k '0') 0 = some 0
      have hc : charDigit '0' = some 0 := rfl
      simp only [digitsValGo, hc]
      rw [show 10 * 0 + 0 = 0 by omega]
      exact ih

theorem digitsVal_map_digitChar (ds : List ℕ) (h : ∀ d ∈ ds, d < 10) :
    ∀ acc : ℕ, digitsValGo (ds.map Nat.digitChar) acc =
      some (ds.foldl (fun a d => 10 * a + d) acc) := by
  induction ds with
  | nil => intro acc; rfl
  | cons d ds ih =>
      intro acc
      have hd : d < 10 := h d (List.mem_cons_self _ _)
      simp only [List.map_cons, digitsValGo, charDigit_digitChar hd, List.foldl_cons]
      exact ih (fun x hx => h x (List.mem_cons_of_mem _ hx)) _

theorem foldl_base10_reverse (ds : List ℕ) :
    ds.reverse.foldl (fun a d => 10 * a + d) 0 = Nat.ofDigits 10 ds := by
  induction ds with
  | nil => rfl
  | cons d ds ih =>
      rw [List.reverse_cons, List.foldl_append, ih, Nat.ofDigits_cons]
      simp only [List.foldl_cons, List.foldl_nil]
      omega

theorem digitsVal_rev_digits (n : ℕ) :
    digitsVal (((Nat.digits 10 n).map Nat.digitChar).reverse) = some n := by
  rw [← List.map_reverse]
  unfold digitsVal
  rw [digitsVal_map_digitChar _
    (fun d hd => Nat.digits_lt_base (by norm_num) (List.mem_reverse.mp hd)) 0]
  rw [foldl_base10_reverse, Nat.ofDigits_digits]

theorem digitsVal_natChars (n : ℕ) : digitsVal (natChars n) = some n := by
  by_cases hn : n = 0
  · subst hn; rfl
  · unfold natChars
    rw [if_neg hn]
    exact digitsVal_rev_digits n

theorem natChars_ne_nil (n : ℕ) : natChars n ≠ [] := by
  by_cases hn : n = 0
  · subst hn; simp [natChars]
  · unfold natChars
    rw [if_neg hn]
    simp [Nat.digits_ne_nil_iff_ne_zero.mpr hn]

theorem natChars_mem {n : ℕ} {c : Char} (hc : c ∈ natChars n) :
    ∃ d, d < 10 ∧ c = Nat.digitChar d := by
  by_cases hn : n = 0
  · subst hn
    simp [natChars] at hc
    exact ⟨0, by omega, by rw [hc]; rfl⟩
  · unfold natChars at hc
    rw [if_neg hn] at hc
    rw [List.mem_reverse, List.mem_map] at hc
    obtain ⟨d, hd, rfl⟩ := hc
    exact ⟨d, Nat.digits_lt_base (by norm_num) hd, rfl⟩

theorem takeWhile_dot_of_all (ic : List Char) (h : ∀ c ∈ ic, c ≠ '.') :
    ic.takeWhile (fun c => c != '.') = ic ∧ ic.dropWhile (fun c => c != '.') = [] := by
  induction ic with
  | nil => exact ⟨rfl, rfl⟩
  | cons c cs ih =>
      have hc : (c != '.') = true := bne_iff_ne.mpr (h c (List.mem_cons_self _ _))
      have h2 := ih (fun x hx => h x (List.mem_cons_of_mem _ hx))
      simp [List.takeWhile_cons, List.dropWhile_cons, hc, h2.1, h2.2]

theorem takeWhile_dot_append (ic fc : List Char) (h : ∀ c ∈ ic, c ≠ '.') :
    (ic ++ '.' :: fc).takeWhile (fun c => c != '.') = ic ∧
      (ic ++ '.' :: fc).dropWhile (fun c => c != '.') = '.' :: fc := by
  induction ic with
  | nil =>
      constructor
      · simp [List.takeWhile_cons]
      · simp [List.dropWhile_cons]
  | cons c cs ih =>
      have hc : (c != '.') = true := bne_iff_ne.mpr (h c (List.mem_cons_self _ _))
      have h2 := ih (fun x hx => h x (List.mem_cons_of_mem _ hx))
      simp only [List.cons_append, List.takeWhile_cons, List.dropWhile_cons, hc, if_true]
      exact ⟨by rw [h2.1], by rw [h2.2]⟩

/-- Parsing a plain decimal literal `[-] intDigits [. fracDigits]`. -/
theorem jsNumber_shape (neg : Prop) [Decidable neg] (ic fc : List Char) {a b : ℕ}
    (hic : digitsVal ic = some a) (hfc : digitsVal fc = some b)
    (hicne : ic ≠ [])
    (hic0 : ∀ c ∈ ic, c ≠ '.' ∧ c ≠ '-' ∧ c ≠ '+') :
    jsNumber ((if neg then ['-'] else []) ++ ic ++ (if fc = [] then [] else '.' :: fc)) =
      some ((if neg then -1 else 1) * ((a : ℚ) + (b : ℚ) / 10 ^ fc.length)) := by
  obtain ⟨c0, ic', rfl⟩ := List.exists_cons_of_ne_nil hicne
  have hdot : ∀ c ∈ c0 :: ic', c ≠ '.' := fun c hc => (hic0 c hc).1
  set tail : List Char := if fc = [] then [] else '.' :: fc with htail
  have hsplit : ((c0 :: ic') ++ tail).takeWhile (fun c => c != '.') = c0 :: ic' ∧
      (((c0 :: ic') ++ tail).dropWhile (fun c => c != '.')).drop 1 = fc := by
    by_cases hfce : fc = []
    · rw [htail, if_pos hfce, List.append_nil]
      obtain ⟨h1, h2⟩ := takeWhile_dot_of_all _ hdot
      rw [h1, h2]
      exact ⟨rfl, hfce.symm⟩
    · rw [htail, if_neg hfce]
      obtain ⟨h1, h2⟩ := takeWhile_dot_append _ fc hdot
      rw [h1, h2]
      exact ⟨rfl, rfl⟩
  have ht' : List.takeWhile (fun c => c != '.') (c0 :: (ic' ++ tail)) = c0 :: ic' := by
    simpa using hsplit.1
  have hfp' : (List.dropWhile (fun c => c != '.') (c0 :: (ic' ++ tail))).drop 1 = fc := by
    simpa using hsplit.2
  have hc0 := hic0 c0 (List.mem_cons_self _ _)
  by_cases hneg : neg
  · simp only [if_pos hneg]
    simp [jsNumber, ht', hfp', hic, hfc]
  · simp only [if_neg hneg]
    simp [jsNumber, ht', hfp', hic, hfc, hc0.2.1, hc0.2.2]

theorem dropWhile_append_char (p : Char → Bool) (xs ys : List Char) :
    (xs ++ ys).dropWhile p =
      if xs.dropWhile p = [] then ys.dropWhile p
      else xs.dropWhile p ++ ys := by
  induction xs with
  | nil => simp
  | cons c cs ih =>
      by_cases hc : p c = true
      · simpa [List.dropWhile_cons, hc] using ih
      · simp [List.dropWhile_cons, hc]

theorem dropWhile_zero_append (xs ys : List Char) :
    (xs ++ ys).dropWhile (fun c => c == '0') =
      if xs.dropWhile (fun c => c == '0') = [] then ys.dropWhile (fun c => c == '0')
      else xs.dropWhile (fun c => c == '0') ++ ys :=
  dropWhile_append_char _ xs ys

theorem dropWhile_head_false (p : Char → Bool) {l : List Char} {c : Char} {t : List Char}
    (h : l.dropWhile p = c :: t) : p c = false := by
  induction l with
  | nil => cases h
  | cons x xs ih =>
      by_cases hx : p x = true
      · rw [List.dropWhile_cons_of_pos hx] at h
        exact ih h
      · rw [List.dropWhile_cons_of_neg hx] at h
        cases h
        simpa using hx

theorem digitsVal_all_zeros (l : List Char) (h : ∀ c ∈ l, c = '0') :
    digitsVal l = some 0 := by
  induction l with
  | nil => rfl
  | cons c cs ih =>
      have hc : c = '0' := h c (List.mem_cons_self _ _)
      subst hc
      show digitsValGo ('0' :: cs) 0 = some 0
      have h0 : charDigit '0' = some 0 := rfl
      simp only [digitsValGo, h0]
      rw [show 10 * 0 + 0 = 0 by omega]
      exact ih (fun x hx => h x (List.mem_cons_of_mem _ hx))

/-- The effect of `trimTrailingZeros` on a string of the form
`pre ++ '.' ++ fracDigits`: trailing zeros of the fractional part are
removed, and the point too when the whole fractional part was zeros. -/
theorem trimTrailingZeros_shape (pre fd : List Char) (hfd : ∀ c ∈ fd, c ≠ '.') :
    trimTrailingZeros (pre ++ '.' :: fd) =
      if (fd.reverse.dropWhile (fun c => c == '0')) = [] then pre
      else pre ++ '.' :: (fd.reverse.dropWhile (fun c => c == '0')).reverse := by
  unfold trimTrailingZeros
  rw [if_pos (by simp : '.' ∈ pre ++ '.' :: fd)]
  have hrev : (pre ++ '.' :: fd).reverse = fd.reverse ++ '.' :: pre.reverse := by
    simp
  rw [hrev, dropWhile_zero_append]
  by_cases ht : fd.reverse.dropWhile (fun c => c == '0') = []
  · rw [if_pos ht, if_pos ht]
    rw [List.dropWhile_cons_of_neg (by simp)]
    show (if List.take 1 ('.' :: pre.reverse) = ['.'] then List.drop 1 ('.' :: pre.reverse)
        else '.' :: pre.reverse).reverse = pre
    rw [if_pos (by simp)]
    simp
  · rw [if_neg ht, if_neg ht]
    obtain ⟨c, t', hct⟩ := List.exists_cons_of_ne_nil ht
    have hc0 : (c == '0') = false := dropWhile_head_false (fun x => x == '0') hct
    have hcfd : c ∈ fd := by
      have hsub := (List.dropWhile_suffix (l := fd.reverse) (fun c => c == '0')).subset
      have : c ∈ fd.reverse := hsub (by rw [hct]; exact List.mem_cons_self _ _)
      exact List.mem_reverse.mp this
    have hcd : c ≠ '.' := hfd c hcfd
    rw [hct]
    show (if List.take 1 (c :: t' ++ '.' :: pre.reverse) = ['.'] then
        List.drop 1 (c :: t' ++ '.' :: pre.reverse)
      else c :: t' ++ '.' :: pre.reverse).reverse = pre ++ '.' :: (c :: t').reverse
    rw [if_neg (by simp [hcd])]
    simp

theorem digits_length_le_six {m : ℕ} (hm : m < 10 ^ 6) : (Nat.digits 10 m).length ≤ 6 := by
  by_cases h0 : m = 0
  · subst h0; simp
  · by_contra h
    have h1 := Nat.base_pow_length_digits_le 10 m (by norm_num) h0
    have h2 : (10 : ℕ) ^ 7 ≤ 10 ^ (Nat.digits 10 m).length :=
      Nat.pow_le_pow_right (by norm_num) (by omega)
    have h3 : (10 : ℕ) ^ 7 = 10 * 10 ^ 6 := by norm_num
    omega

theorem fracChars_spec (m : ℕ) (hm : m < 10 ^ 6) :
    digitsVal (((Nat.digits 10 m ++
        List.replicate (6 - (Nat.digits 10 m).length) 0).map Nat.digitChar).reverse) = some m ∧
    (((Nat.digits 10 m ++
        List.replicate (6 - (Nat.digits 10 m).length) 0).map Nat.digitChar).reverse).length = 6 ∧
    ∀ c ∈ ((Nat.digits 10 m ++
        List.replicate (6 - (Nat.digits 10 m).length) 0).map Nat.digitChar).reverse,
      ∃ d, d < 10 ∧ c = Nat.digitChar d := by
  refine ⟨?_, ?_, ?_⟩
  · rw [List.map_append, List.reverse_append]
    have hrep : ((List.replicate (6 - (Nat.digits 10 m).length) 0).map Nat.digitChar).reverse =
        List.replicate (6 - (Nat.digits 10 m).length) '0' := by
      rw [List.map_replicate, List.reverse_replicate]
      rfl
    rw [hrep]
    have h1 := digitsVal_replicate_zero (6 - (Nat.digits 10 m).length)
    have h2 := digitsVal_rev_digits m
    have := digitsVal_append h1 h2
    rw [this]
    simp
  · simp only [List.length_reverse, List.length_map, List.length_append,
      List.length_replicate]
    have := digits_length_le_six hm
    omega
  · intro c hc
    rw [List.mem_reverse, List.mem_map] at hc
    obtain ⟨d, hd, rfl⟩ := hc
    rcases List.mem_append.mp hd with hd | hd
    · exact ⟨d, Nat.digits_lt_base (by norm_num) hd, rfl⟩
    · have : d = 0 := List.eq_of_mem_replicate hd
      exact ⟨d, by omega, rfl⟩

theorem digitsVal_append_some_left {xs ys : List Char} {v : ℕ}
    (h : digitsVal (xs ++ ys) = some v) : ∃ a, digitsVal xs = some a := by
  unfold digitsVal at h ⊢
  rw [digitsValGo_append] at h
  cases hx : digitsValGo xs 0 with
  | none => rw [hx] at h; cases h
  | some a => exact ⟨a, rfl⟩

theorem trailing_zeros_value (fd : List Char) (m : ℕ) (hfd : digitsVal fd = some m) :
    (fd.reverse.dropWhile (fun c => c == '0') = [] → m = 0) ∧
    (fd.reverse.dropWhile (fun c => c == '0') ≠ [] →
      ∃ b : ℕ,
        digitsVal ((fd.reverse.dropWhile (fun c => c == '0')).reverse) = some b ∧
        (b : ℚ) * 10 ^ fd.length =
          (m : ℚ) * 10 ^ ((fd.reverse.dropWhile (fun c => c == '0')).reverse).length) := by
  have hdecomp : fd = (fd.reverse.dropWhile (fun c => c == '0')).reverse ++
      (fd.reverse.takeWhile (fun c => c == '0')).reverse := by
    have h1 : fd.reverse.takeWhile (fun c => c == '0') ++
        fd.reverse.dropWhile (fun c => c == '0') = fd.reverse :=
      List.takeWhile_append_dropWhile _ _
    have h2 := congrArg List.reverse h1
    rw [List.reverse_append, List.reverse_reverse] at h2
    exact h2.symm
  have hzeros : ∀ c ∈ (fd.reverse.takeWhile (fun c => c == '0')).reverse, c = '0' := by
    intro c hc
    have := List.mem_takeWhile_imp (List.mem_reverse.mp hc)
    simpa using this
  have hz : digitsVal ((fd.reverse.takeWhile (fun c => c == '0')).reverse) = some 0 :=
    digitsVal_all_zeros _ hzeros
  constructor
  · intro ht
    have : fd = (fd.reverse.takeWhile (fun c => c == '0')).reverse := by
      conv_lhs => rw [hdecomp]
      rw [ht]
      simp
    rw [this, hz] at hfd
    exact (Option.some_inj.mp hfd).symm
  · intro ht
    obtain ⟨b, hb⟩ := digitsVal_append_some_left (hdecomp ▸ hfd)
    refine ⟨b, hb, ?_⟩
    have hval := digitsVal_append hb hz
    rw [← hdecomp] at hval
    rw [hfd] at hval
    have hm : m = b * 10 ^ ((fd.reverse.takeWhile (fun c => c == '0')).reverse).length := by
      have := Option.some_inj.mp hval
      omega
    have hlen : fd.length = ((fd.reverse.dropWhile (fun c => c == '0')).reverse).length +
        ((fd.reverse.takeWhile (fun c => c == '0')).reverse).length := by
      conv_lhs => rw [hdecomp]
      simp
    rw [hm, hlen]
    push_cast
    ring

/-- `formatFloat` at precision 6 parses back (via `Number`) to exactly the
half-away-rounded value `±⌊|q|·10⁶ + 1/2⌋ / 10⁶`, and its characters are
plain (no whitespace, no line breaks). -/
theorem formatFloat_six_spec (q : ℚ) :
    jsNumber (formatFloat q 6) =
      some ((if q < 0 then -1 else 1) * ((⌊|q| * 10 ^ 6 + 1 / 2⌋.toNat : ℚ) / 10 ^ 6)) ∧
    formatFloat q 6 ≠ [] ∧
    ∀ c ∈ formatFloat q 6, isWs c = false ∧ c ≠ '\n' ∧ c ≠ '\r' := by
  set n : ℕ := ⌊|q| * 10 ^ 6 + 1 / 2⌋.toNat with hn
  set fdC : List Char := ((Nat.digits 10 (n % 10 ^ 6) ++
      List.replicate (6 - (Nat.digits 10 (n % 10 ^ 6)).length) 0).map Nat.digitChar).reverse
    with hfdC
  have htf : toFixedChars q 6 =
      ((if q < 0 then ['-'] else []) ++ natChars (n / 10 ^ 6)) ++ '.' :: fdC := rfl
  obtain ⟨hfdval, hfdlen, hfdchars⟩ :=
    fracChars_spec (n % 10 ^ 6) (Nat.mod_lt _ (by norm_num))
  rw [← hfdC] at hfdval hfdlen hfdchars
  have hfddot : ∀ c ∈ fdC, c ≠ '.' := by
    intro c hc
    obtain ⟨d, hd, rfl⟩ := hfdchars c hc
    exact (digitChar_props hd).2.2.2.1
  have hff : formatFloat q 6 =
      if fdC.reverse.dropWhile (fun c => c == '0') = [] then
        (if q < 0 then ['-'] else []) ++ natChars (n / 10 ^ 6)
      else ((if q < 0 then ['-'] else []) ++ natChars (n / 10 ^ 6)) ++
        '.' :: (fdC.reverse.dropWhile (fun c => c == '0')).reverse := by
    unfold formatFloat
    rw [htf, trimTrailingZeros_shape _ _ hfddot]
  have hic : digitsVal (natChars (n / 10 ^ 6)) = some (n / 10 ^ 6) := digitsVal_natChars _
  have hicne : natChars (n / 10 ^ 6) ≠ [] := natChars_ne_nil _
  have hic0 : ∀ c ∈ natChars (n / 10 ^ 6), c ≠ '.' ∧ c ≠ '-' ∧ c ≠ '+' := by
    intro c hc
    obtain ⟨d, hd, rfl⟩ := natChars_mem hc
    exact ⟨(digitChar_props hd).2.2.2.1, (digitChar_props hd).2.2.2.2.1,
      (digitChar_props hd).2.2.2.2.2⟩
  have hsplit_n : (n : ℚ) = 10 ^ 6 * ((n / 10 ^ 6 : ℕ) : ℚ) + ((n % 10 ^ 6 : ℕ) : ℚ) := by
    exact_mod_cast (Nat.div_add_mod n (10 ^ 6)).symm
  have hdm : ((n / 10 ^ 6 : ℕ) : ℚ) + ((n % 10 ^ 6 : ℕ) : ℚ) / 10 ^ 6 = (n : ℚ) / 10 ^ 6 := by
    rw [hsplit_n]
    field_simp
    ring
  obtain ⟨hzcase, hvcase⟩ := trailing_zeros_value fdC (n % 10 ^ 6) hfdval
  by_cases ht : fdC.reverse.dropWhile (fun c => c == '0') = []
  · -- the whole fractional part was zeros: the point is dropped
    rw [if_pos ht] at hff
    have hm0 : n % 10 ^ 6 = 0 := hzcase ht
    refine ⟨?_, ?_, ?_⟩
    · have hl2 : (if q < 0 then ['-'] else []) ++ natChars (n / 10 ^ 6) ++
          (if ([] : List Char) = [] then [] else '.' :: []) =
          ((if q < 0 then ['-'] else []) ++ natChars (n / 10 ^ 6)) := by
        simp
      have := jsNumber_shape (q < 0) (natChars (n / 10 ^ 6)) []
        hic (by rfl) hicne hic0
      rw [hl2] at this
      rw [hff, this]
      congr 1
      rw [← hdm, hm0]
      norm_num
    · rw [hff]
      intro hcon
      rcases List.append_eq_nil.mp hcon with ⟨_, h2⟩
      exact hicne h2
    · rw [hff]
      intro c hc
      rcases List.mem_append.mp hc with hc | hc
      · by_cases hq : q < 0
        · rw [if_pos hq] at hc
          simp at hc
          subst hc
          exact ⟨rfl, by decide, by decide⟩
        · rw [if_neg hq] at hc
          cases hc
      · obtain ⟨d, hd, rfl⟩ := natChars_mem hc
        exact ⟨(digitChar_props hd).1, (digitChar_props hd).2.1, (digitChar_props hd).2.2.1⟩
  · -- some non-zero fractional digit survives
    rw [if_neg ht] at hff
    obtain ⟨b, hbval, hbeq⟩ := hvcase ht
    have htne : (fdC.reverse.dropWhile (fun c => c == '0')).reverse ≠ [] := by
      intro hcon
      exact ht (by simpa using congrArg List.reverse hcon)
    refine ⟨?_, ?_, ?_⟩
    · have hl2 : (if q < 0 then ['-'] else []) ++ natChars (n / 10 ^ 6) ++
          (if (fdC.reverse.dropWhile (fun c => c == '0')).reverse = [] then []
            else '.' :: (fdC.reverse.dropWhile (fun c => c == '0')).reverse) =
          ((if q < 0 then ['-'] else []) ++ natChars (n / 10 ^ 6)) ++
            '.' :: (fdC.reverse.dropWhile (fun c => c == '0')).reverse := by
        rw [if_neg htne, List.append_assoc]
      have := jsNumber_shape (q < 0) (natChars (n / 10 ^ 6))
        ((fdC.reverse.dropWhile (fun c => c == '0')).reverse) hic hbval hicne hic0
      rw [hl2] at this
      rw [hff, this]
      congr 1
      rw [hfdlen] at hbeq
      have hbfrac : (b : ℚ) / 10 ^ ((fdC.reverse.dropWhile (fun c => c == '0')).reverse).length =
          ((n % 10 ^ 6 : ℕ) : ℚ) / 10 ^ 6 := by
        rw [div_eq_div_iff (by positivity) (by positivity)]
        linarith [hbeq]
      rw [hbfrac, hdm]
    · rw [hff]
      intro hcon
      rcases List.append_eq_nil.mp hcon with ⟨_, h2⟩
      cases h2
    · rw [hff]
      intro c hc
      rcases List.mem_append.mp hc with hc | hc
      · rcases List.mem_append.mp hc with hc | hc
        · by_cases hq : q < 0
          · rw [if_pos hq] at hc
            simp at hc
            subst hc
            exact ⟨rfl, by decide, by decide⟩
          · rw [if_neg hq] at hc
            cases hc
        · obtain ⟨d, hd, rfl⟩ := natChars_mem hc
          exact ⟨(digitChar_props hd).1, (digitChar_props hd).2.1, (digitChar_props hd).2.2.1⟩
      · rcases List.mem_cons.mp hc with rfl | hc
        · exact ⟨rfl, by decide, by decide⟩
        · have hcf : c ∈ fdC := by
            have hsub := (List.dropWhile_suffix
              (l := fdC.reverse) (fun c => c == '0')).subset
            exact List.mem_reverse.mp (hsub (List.mem_reverse.mp hc))
          obtain ⟨d, hd, rfl⟩ := hfdchars c hcf
          exact ⟨(digitChar_props hd).1, (digitChar_props hd).2.1, (digitChar_props hd).2.2.1⟩

theorem round_six_close (q : ℚ) :
    |q - (if q < 0 then -1 else 1) * ((⌊|q| * 10 ^ 6 + 1 / 2⌋.toNat : ℚ) / 10 ^ 6)| ≤
      1 / 1000000 := by
  have hfl0 : (0 : ℤ) ≤ ⌊|q| * 10 ^ 6 + 1 / 2⌋ := by
    apply Int.floor_nonneg.mpr
    positivity
  have hcast : ((⌊|q| * 10 ^ 6 + 1 / 2⌋.toNat : ℕ) : ℚ) = ((⌊|q| * 10 ^ 6 + 1 / 2⌋ : ℤ) : ℚ) := by
    exact_mod_cast Int.toNat_of_nonneg hfl0
  have h1 : ((⌊|q| * 10 ^ 6 + 1 / 2⌋.toNat : ℕ) : ℚ) ≤ |q| * 10 ^ 6 + 1 / 2 := by
    rw [hcast]
    exact Int.floor_le _
  have h2 : |q| * 10 ^ 6 - 1 / 2 ≤ ((⌊|q| * 10 ^ 6 + 1 / 2⌋.toNat : ℕ) : ℚ) := by
    rw [hcast]
    have := Int.sub_one_lt_floor (|q| * 10 ^ 6 + 1 / 2)
    linarith
  set N : ℚ := ((⌊|q| * 10 ^ 6 + 1 / 2⌋.toNat : ℕ) : ℚ)
  have hpow : (10 : ℚ) ^ 6 = 1000000 := by norm_num
  have hcenter : |(|q|) - N / 10 ^ 6| ≤ 1 / 1000000 := by
    rw [abs_le, hpow]
    rw [hpow] at h1 h2
    constructor
    · linarith
    · linarith
  by_cases hq : q < 0
  · rw [if_pos hq]
    have habs : |q| = -q := abs_of_neg hq
    have hrw : q - (-1) * (N / 10 ^ 6) = -((|q|) - N / 10 ^ 6) := by rw [habs]; ring
    rw [hrw, abs_neg]
    exact hcenter
  · rw [if_neg hq]
    have habs : |q| = q := abs_of_nonneg (not_lt.mp hq)
    have hrw : q - 1 * (N / 10 ^ 6) = (|q|) - N / 10 ^ 6 := by rw [habs]; ring
    rw [hrw]
    exact hcenter

theorem formatFloat_ne_nil (q : ℚ) : formatFloat q 6 ≠ [] :=
  (formatFloat_six_spec q).2.1

theorem formatFloat_no_ws (q : ℚ) : ∀ c ∈ formatFloat q 6, isWs c = false :=
  fun c hc => ((formatFloat_six_spec q).2.2 c hc).1

theorem formatFloat_no_nl (q : ℚ) : ∀ c ∈ formatFloat q 6, c ≠ '\n' ∧ c ≠ '\r' :=
  fun c hc => ⟨((formatFloat_six_spec q).2.2 c hc).2.1, ((formatFloat_six_spec q).2.2 c hc).2.2⟩

theorem orZero_formatFloat (q : ℚ) :
    orZero (jsNumber (formatFloat q 6)) =
      (if q < 0 then -1 else 1) * ((⌊|q| * 10 ^ 6 + 1 / 2⌋.toNat : ℚ) / 10 ^ 6) := by
  rw [orZero, (formatFloat_six_spec q).1, Option.getD_some]

theorem reparsedVec_close (v : Vec3) : vecClose (1 / 1000000) (reparsedVec v) v := by
  have h : ∀ q : ℚ, |orZero (jsNumber (formatFloat q 6)) - q| ≤ 1 / 1000000 := by
    intro q
    rw [orZero_formatFloat, abs_sub_comm]
    exact round_six_close q
  exact ⟨h v.x, h v.y, h v.z⟩

theorem replaceCRLF_of_no_cr (l : List Char) (h : '\r' ∉ l) : replaceCRLF l = l := by
  induction l with
  | nil => rfl
  | cons c rest ih =>
      have hc : c ≠ '\r' := fun hceq => h (by simp [hceq])
      have hrest : '\r' ∉ rest := fun hm => h (List.mem_cons_of_mem _ hm)
      rw [replaceCRLF.eq_def]
      split
      · next r heq =>
          exfalso
          apply hc
          injection heq
      · next c' rest' _ heq =>
          injection heq with h1 h2
          rw [← h2, ih hrest, h1]
      · next heq => exact absurd heq (List.cons_ne_nil _ _)

theorem dropWhile_replicate_space (k : ℕ) (w : List Char) :
    (List.replicate k ' ' ++ w).dropWhile isWs = w.dropWhile isWs := by
  induction k with
  | zero => simp
  | succ k ih =>
      rw [List.replicate_succ, List.cons_append, List.dropWhile_cons_of_pos (by decide)]
      exact ih

theorem rtrim_append (xs f : List Char) (hf : f ≠ []) (hfws : ∀ c ∈ f, isWs c = false) :
    ((xs ++ f).reverse.dropWhile isWs).reverse = xs ++ f := by
  have hfrev : f.reverse ≠ [] := by simpa using hf
  obtain ⟨c, t, hct⟩ := List.exists_cons_of_ne_nil hfrev
  have hrev : (xs ++ f).reverse = c :: (t ++ xs.reverse) := by
    rw [List.reverse_append, hct, List.cons_append]
  have hc : isWs c = false := by
    apply hfws
    rw [← List.mem_reverse, hct]
    exact List.mem_cons_self _ _
  rw [hrev, List.dropWhile_cons_of_neg (by simp [hc]), ← hrev]
  simp

theorem jsTrim_spaces_append (k : ℕ) (c : Char) (m f : List Char) (hc : isWs c = false)
    (hf : f ≠ []) (hfws : ∀ x ∈ f, isWs x = false) :
    jsTrim (List.replicate k ' ' ++ (c :: (m ++ f))) = c :: (m ++ f) := by
  unfold jsTrim
  rw [dropWhile_replicate_space, List.dropWhile_cons_of_neg (by simp [hc])]
  exact rtrim_append (c :: m) f hf hfws

theorem jsTrim_cons_head (c : Char) (t : List Char) (hc : isWs c = false) :
    ∃ r, jsTrim (c :: t) = c :: r := by
  unfold jsTrim
  rw [List.dropWhile_cons_of_neg (by simp [hc])]
  rw [show (c :: t).reverse = t.reverse ++ [c] from by simp]
  rw [dropWhile_append_char]
  by_cases h : t.reverse.dropWhile isWs = []
  · rw [if_pos h, List.dropWhile_cons_of_neg (by simp [hc])]
    exact ⟨[], by simp⟩
  · rw [if_neg h]
    exact ⟨(t.reverse.dropWhile isWs).reverse, by simp⟩

theorem splitWsGo_nil (acc : List Char) : splitWsGo acc [] = [acc.reverse] := rfl

theorem splitWsGo_cons_ws (acc l : List Char) (c : Char) (hc : isWs c = true) :
    splitWsGo acc (c :: l) = acc.reverse :: splitWsSkip l := by
  simp [splitWsGo, hc]

theorem splitWsGo_cons_nonws (acc l : List Char) (c : Char) (hc : isWs c = false) :
    splitWsGo acc (c :: l) = splitWsGo (c :: acc) l := by
  simp [splitWsGo, hc]

theorem splitWsSkip_cons_nonws (c : Char) (l : List Char) (hc : isWs c = false) :
    splitWsSkip (c :: l) = splitWsGo [c] l := by
  simp [splitWsSkip, hc]

theorem splitWsGo_word (w : List Char) (hw : ∀ c ∈ w, isWs c = false) :
    ∀ (acc l : List Char), splitWsGo acc (w ++ l) = splitWsGo (w.reverse ++ acc) l := by
  induction w with
  | nil => intro acc l; simp
  | cons c cs ih =>
      intro acc l
      rw [List.cons_append, splitWsGo_cons_nonws _ _ c (hw c (List.mem_cons_self _ _))]
      rw [ih (fun x hx => hw x (List.mem_cons_of_mem _ hx)) (c :: acc) l]
      simp

theorem splitWsSkip_word_ws (c : Char) (t l : List Char) (hc : isWs c = false)
    (ht : ∀ x ∈ t, isWs x = false) :
    splitWsSkip (c :: (t ++ (' ' :: l))) = (c :: t) :: splitWsSkip l := by
  rw [splitWsSkip_cons_nonws c _ hc, splitWsGo_word t ht]
  rw [splitWsGo_cons_ws _ _ ' ' (by decide)]
  simp

theorem splitWsSkip_word_nil (c : Char) (t : List Char) (hc : isWs c = false)
    (ht : ∀ x ∈ t, isWs x = false) :
    splitWsSkip (c :: t) = [c :: t] := by
  have h := splitWsSkip_cons_nonws c t hc
  rw [h]
  have h2 := splitWsGo_word t ht [c] []
  rw [List.append_nil] at h2
  rw [h2, splitWsGo_nil]
  simp

theorem jsSplitWs_word_ws (w l : List Char) (hw : ∀ c ∈ w, isWs c = false) :
    jsSplitWs (w ++ (' ' :: l)) = w :: splitWsSkip l := by
  unfold jsSplitWs
  rw [splitWsGo_word w hw, List.append_nil, splitWsGo_cons_ws _ _ ' ' (by decide)]
  simp

theorem jsSplitWs_four (w1 f1 f2 f3 : List Char)
    (h1 : ∀ c ∈ w1, isWs c = false)
    (hf1 : f1 ≠ []) (hf1w : ∀ c ∈ f1, isWs c = false)
    (hf2 : f2 ≠ []) (hf2w : ∀ c ∈ f2, isWs c = false)
    (hf3 : f3 ≠ []) (hf3w : ∀ c ∈ f3, isWs c = false) :
    jsSplitWs (w1 ++ (' ' :: (f1 ++ (' ' :: (f2 ++ (' ' :: f3)))))) = [w1, f1, f2, f3] := by
  obtain ⟨c1, t1, rfl⟩ := List.exists_cons_of_ne_nil hf1
  obtain ⟨c2, t2, rfl⟩ := List.exists_cons_of_ne_nil hf2
  obtain ⟨c3, t3, rfl⟩ := List.exists_cons_of_ne_nil hf3
  rw [jsSplitWs_word_ws _ _ h1]
  rw [List.cons_append, splitWsSkip_word_ws c1 t1 _ (hf1w c1 (List.mem_cons_self _ _))
    (fun x hx => hf1w x (List.mem_cons_of_mem _ hx))]
  rw [List.cons_append, splitWsSkip_word_ws c2 t2 _ (hf2w c2 (List.mem_cons_self _ _))
    (fun x hx => hf2w x (List.mem_cons_of_mem _ hx))]
  rw [splitWsSkip_word_nil c3 t3 (hf3w c3 (List.mem_cons_self _ _))
    (fun x hx => hf3w x (List.mem_cons_of_mem _ hx))]

theorem jsSplitWs_five (w1 w2 f1 f2 f3 : List Char)
    (h1 : ∀ c ∈ w1, isWs c = false)
    (hw2 : w2 ≠ []) (h2 : ∀ c ∈ w2, isWs c = false)
    (hf1 : f1 ≠ []) (hf1w : ∀ c ∈ f1, isWs c = false)
    (hf2 : f2 ≠ []) (hf2w : ∀ c ∈ f2, isWs c = false)
    (hf3 : f3 ≠ []) (hf3w : ∀ c ∈ f3, isWs c = false) :
    jsSplitWs (w1 ++ (' ' :: (w2 ++ (' ' :: (f1 ++ (' ' :: (f2 ++ (' ' :: f3)))))))) =
      [w1, w2, f1, f2, f3] := by
  obtain ⟨c0, t0, rfl⟩ := List.exists_cons_of_ne_nil hw2
  obtain ⟨c1, t1, rfl⟩ := List.exists_cons_of_ne_nil hf1
  obtain ⟨c2, t2, rfl⟩ := List.exists_cons_of_ne_nil hf2
  obtain ⟨c3, t3, rfl⟩ := List.exists_cons_of_ne_nil hf3
  rw [jsSplitWs_word_ws _ _ h1]
  rw [List.cons_append, splitWsSkip_word_ws c0 t0 _ (h2 c0 (List.mem_cons_self _ _))
    (fun x hx => h2 x (List.mem_cons_of_mem _ hx))]
  rw [List.cons_append, splitWsSkip_word_ws c1 t1 _ (hf1w c1 (List.mem_cons_self _ _))
    (fun x hx => hf1w x (List.mem_cons_of_mem _ hx))]
  rw [List.cons_append, splitWsSkip_word_ws c2 t2 _ (hf2w c2 (List.mem_cons_self _ _))
    (fun x hx => hf2w x (List.mem_cons_of_mem _ hx))]
  rw [splitWsSkip_word_nil c3 t3 (hf3w c3 (List.mem_cons_self _ _))
    (fun x hx => hf3w x (List.mem_cons_of_mem _ hx))]

theorem jsTrim_vertex_emitted (f1 f2 f3 : List Char)
    (hf3 : f3 ≠ []) (hf3w : ∀ x ∈ f3, isWs x = false) :
    jsTrim ("      vertex ".toList ++ f1 ++ [' '] ++ f2 ++ [' '] ++ f3) =
      "vertex".toList ++ (' ' :: (f1 ++ (' ' :: (f2 ++ (' ' :: f3))))) := by
  have hshape : "      vertex ".toList ++ f1 ++ [' '] ++ f2 ++ [' '] ++ f3 =
      List.replicate 6 ' ' ++
        ('v' :: (("ertex ".toList ++ f1 ++ [' '] ++ f2 ++ [' ']) ++ f3)) := by
    simp [List.replicate, List.append_assoc]
  rw [hshape, jsTrim_spaces_append 6 'v' _ f3 (by decide) hf3 hf3w]
  simp [List.append_assoc]

theorem jsTrim_facet_emitted (f1 f2 f3 : List Char)
    (hf3 : f3 ≠ []) (hf3w : ∀ x ∈ f3, isWs x = false) :
    jsTrim ("  facet normal ".toList ++ f1 ++ [' '] ++ f2 ++ [' '] ++ f3) =
      "facet".toList ++
        (' ' :: ("normal".toList ++ (' ' :: (f1 ++ (' ' :: (f2 ++ (' ' :: f3))))))) := by
  have hshape : "  facet normal ".toList ++ f1 ++ [' '] ++ f2 ++ [' '] ++ f3 =
      List.replicate 2 ' ' ++
        ('f' :: (("acet normal ".toList ++ f1 ++ [' '] ++ f2 ++ [' ']) ++ f3)) := by
    simp [List.replicate, List.append_assoc]
  rw [hshape, jsTrim_spaces_append 2 'f' _ f3 (by decide) hf3 hf3w]
  simp [List.append_assoc]

theorem parseVertexLine_emitted (x y z : ℚ) :
    parseVertexLine ("      vertex ".toList ++ formatFloat x 6 ++ [' '] ++
        formatFloat y 6 ++ [' '] ++ formatFloat z 6) = reparsedVec ⟨x, y, z⟩ := by
  simp only [parseVertexLine]
  rw [jsTrim_vertex_emitted _ _ _ (formatFloat_ne_nil z) (formatFloat_no_ws z)]
  rw [jsSplitWs_four "vertex".toList _ _ _ (by decide)
    (formatFloat_ne_nil x) (formatFloat_no_ws x)
    (formatFloat_ne_nil y) (formatFloat_no_ws y)
    (formatFloat_ne_nil z) (formatFloat_no_ws z)]
  simp [reparsedVec, List.getD]

theorem parseNormalOfLine_emitted (x y z : ℚ) :
    parseNormalOfLine ("  facet normal ".toList ++ formatFloat x 6 ++ [' '] ++
        formatFloat y 6 ++ [' '] ++ formatFloat z 6) = reparsedVec ⟨x, y, z⟩ := by
  simp only [parseNormalOfLine, parseFloatsFromLine]
  rw [jsTrim_facet_emitted _ _ _ (formatFloat_ne_nil z) (formatFloat_no_ws z)]
  rw [jsSplitWs_five "facet".toList "normal".toList _ _ _ (by decide)
    (by decide) (by decide)
    (formatFloat_ne_nil x) (formatFloat_no_ws x)
    (formatFloat_ne_nil y) (formatFloat_no_ws y)
    (formatFloat_ne_nil z) (formatFloat_no_ws z)]
  simp [reparsedVec, List.getD]

theorem isFacetLine_emitted (x y z : ℚ) :
    isFacetLine ("  facet normal ".toList ++ formatFloat x 6 ++ [' '] ++
        formatFloat y 6 ++ [' '] ++ formatFloat z 6) = true := by
  unfold isFacetLine
  rw [jsTrim_facet_emitted _ _ _ (formatFloat_ne_nil z) (formatFloat_no_ws z)]
  rw [show ("facet".toList ++
        (' ' :: ("normal".toList ++ (' ' :: (formatFloat x 6 ++
          (' ' :: (formatFloat y 6 ++ (' ' :: formatFloat z 6))))))) : List Char) =
      "facet normal".toList ++
        (' ' :: (formatFloat x 6 ++ (' ' :: (formatFloat y 6 ++ (' ' :: formatFloat z 6)))))
    from by simp]
  simp [List.isPrefixOf_iff_prefix]

theorem isVertexLine_emitted (x y z : ℚ) :
    isVertexLine ("      vertex ".toList ++ formatFloat x 6 ++ [' '] ++
        formatFloat y 6 ++ [' '] ++ formatFloat z 6) = true := by
  unfold isVertexLine
  rw [jsTrim_vertex_emitted _ _ _ (formatFloat_ne_nil z) (formatFloat_no_ws z)]
  simp [List.isPrefixOf_iff_prefix]

theorem isFacetLine_solid (name : List Char) :
    isFacetLine ("solid ".toList ++ name) = false := by
  obtain ⟨r, hr⟩ := jsTrim_cons_head 's' ("olid ".toList ++ name) (by decide)
  unfold isFacetLine
  rw [show ("solid ".toList ++ name : List Char) = 's' :: ("olid ".toList ++ name) from rfl, hr]
  rw [show ("facet normal".toList : List Char) = 'f' :: "acet normal".toList from rfl,
    List.isPrefixOf_cons₂]
  rw [show (('f' == 's') : Bool) = false from rfl, Bool.false_and]

theorem isFacetLine_endsolid (name : List Char) :
    isFacetLine ("endsolid ".toList ++ name) = false := by
  obtain ⟨r, hr⟩ := jsTrim_cons_head 'e' ("ndsolid ".toList ++ name) (by decide)
  unfold isFacetLine
  rw [show ("endsolid ".toList ++ name : List Char) = 'e' :: ("ndsolid ".toList ++ name)
    from rfl, hr]
  rw [show ("facet normal".toList : List Char) = 'f' :: "acet normal".toList from rfl,
    List.isPrefixOf_cons₂]
  rw [show (('f' == 'e') : Bool) = false from rfl, Bool.false_and]

theorem afterOuterLoop_outer (ls : List (List Char)) :
    afterOuterLoop ("    outer loop".toList :: ls) = ls := by
  unfold afterOuterLoop
  rw [List.dropWhile_cons_of_neg]
  · simp
  · rw [show isOuterLoopLine "    outer loop".toList = true from rfl]
    simp

theorem takeVerts_three (l0 l1 l2 : List Char) (h0 : isVertexLine l0 = true)
    (h1 : isVertexLine l1 = true) (h2 : isVertexLine l2 = true) (rest : List (List Char)) :
    takeVerts 3 (l0 :: l1 :: l2 :: rest) =
      ([parseVertexLine l0, parseVertexLine l1, parseVertexLine l2], rest) := by
  simp [takeVerts, h0, h1, h2]

theorem parseLoop_emitted_block (fl v0l v1l v2l : List Char) (R : List (List Char))
    (hf : isFacetLine fl = true)
    (h0 : isVertexLine v0l = true) (h1 : isVertexLine v1l = true)
    (h2 : isVertexLine v2l = true) :
    parseLoop (fl :: "    outer loop".toList :: v0l :: v1l :: v2l ::
        "    endloop".toList :: "  endfacet".toList :: R) =
      { normal := parseNormalOfLine fl, v0 := parseVertexLine v0l,
        v1 := parseVertexLine v1l, v2 := parseVertexLine v2l } :: parseLoop R := by
  have haol : afterOuterLoop ("    outer loop".toList :: v0l :: v1l :: v2l ::
      "    endloop".toList :: "  endfacet".toList :: R) =
      v0l :: v1l :: v2l :: "    endloop".toList :: "  endfacet".toList :: R :=
    afterOuterLoop_outer _
  have htv := takeVerts_three v0l v1l v2l h0 h1 h2
    ("    endloop".toList :: "  endfacet".toList :: R)
  have hbv : blockVerts ("    outer loop".toList :: v0l :: v1l :: v2l ::
      "    endloop".toList :: "  endfacet".toList :: R) =
      [parseVertexLine v0l, parseVertexLine v1l, parseVertexLine v2l] := by
    unfold blockVerts
    rw [haol, htv]
  have hbr : blockRest ("    outer loop".toList :: v0l :: v1l :: v2l ::
      "    endloop".toList :: "  endfacet".toList :: R) = R := by
    unfold blockRest
    rw [haol, htv]
    show (("    endloop".toList :: "  endfacet".toList :: R).dropWhile
      (fun x => !(isEndfacetLine x))).drop 1 = R
    rw [List.dropWhile_cons_of_pos
      (by rw [show isEndfacetLine "    endloop".toList = false from rfl]; simp)]
    rw [List.dropWhile_cons_of_neg
      (by rw [show isEndfacetLine "  endfacet".toList = true from rfl]; simp)]
    simp
  rw [parseLoop_cons_facet _ _ hf, hbv, hbr, if_pos (by simp)]
  simp [List.getD]

theorem parseLoop_emitted_blocks (M : List Triangle) (R : List (List Char)) :
    parseLoop ((M.map fun t => triangleBlockLines t 6).flatten ++ R) =
      M.map reparsedTri ++ parseLoop R := by
  induction M with
  | nil => simp
  | cons t ts ih =>
      rw [List.map_cons, List.flatten_cons, List.append_assoc]
      simp only [triangleBlockLines, List.cons_append, List.nil_append] at ih ⊢
      rw [parseLoop_emitted_block _ _ _ _ _ (isFacetLine_emitted _ _ _)
        (isVertexLine_emitted _ _ _) (isVertexLine_emitted _ _ _) (isVertexLine_emitted _ _ _)]
      rw [ih, parseNormalOfLine_emitted, parseVertexLine_emitted, parseVertexLine_emitted,
        parseVertexLine_emitted]
      rfl

theorem coordLine_chars (pre : List Char) (hpre : ∀ c ∈ pre, c ≠ '\n' ∧ c ≠ '\r')
    (a b d : ℚ) :
    ∀ c ∈ pre ++ formatFloat a 6 ++ [' '] ++ formatFloat b 6 ++ [' '] ++ formatFloat d 6,
      c ≠ '\n' ∧ c ≠ '\r' := by
  intro c hc
  simp only [List.mem_append, List.mem_singleton] at hc
  rcases hc with ((((hc | hc) | hc) | hc) | hc) | hc
  · exact hpre c hc
  · exact formatFloat_no_nl a c hc
  · subst hc
    exact ⟨by decide, by decide⟩
  · exact formatFloat_no_nl b c hc
  · subst hc
    exact ⟨by decide, by decide⟩
  · exact formatFloat_no_nl d c hc

theorem triangleBlockLines_chars (t : Triangle) :
    ∀ l ∈ triangleBlockLines t 6, ∀ c ∈ l, c ≠ '\n' ∧ c ≠ '\r' := by
  intro l hl
  simp only [triangleBlockLines, List.mem_cons, List.not_mem_nil, or_false] at hl
  have houter : ∀ c ∈ "    outer loop".toList, c ≠ '\n' ∧ c ≠ '\r' := by decide
  have hendloop : ∀ c ∈ "    endloop".toList, c ≠ '\n' ∧ c ≠ '\r' := by decide
  have hendfacet : ∀ c ∈ "  endfacet".toList, c ≠ '\n' ∧ c ≠ '\r' := by decide
  rcases hl with rfl | rfl | rfl | rfl | rfl | rfl | rfl
  · exact coordLine_chars _ (by decide) _ _ _
  · exact houter
  · exact coordLine_chars _ (by decide) _ _ _
  · exact coordLine_chars _ (by decide) _ _ _
  · exact coordLine_chars _ (by decide) _ _ _
  · exact hendloop
  · exact hendfacet

theorem emittedLines_chars (M : List Triangle) (name : List Char)
    (hn : '\n' ∉ name) (hr : '\r' ∉ name) :
    ∀ l ∈ trianglesToAsciiLines M name 6, ∀ c ∈ l, c ≠ '\n' ∧ c ≠ '\r' := by
  have hsolid : ∀ c ∈ "solid ".toList, c ≠ '\n' ∧ c ≠ '\r' := by decide
  have hendsolid : ∀ c ∈ "endsolid ".toList, c ≠ '\n' ∧ c ≠ '\r' := by decide
  intro l hl
  simp only [trianglesToAsciiLines, List.mem_cons, List.mem_append, List.mem_singleton,
    List.mem_flatten, List.mem_map, List.not_mem_nil, or_false] at hl
  rcases hl with (rfl | ⟨b, ⟨tt, _, rfl⟩, hlb⟩) | rfl
  · intro c hc
    rcases List.mem_append.mp hc with h | h
    · exact hsolid c h
    · exact ⟨fun he => hn (he ▸ h), fun he => hr (he ▸ h)⟩
  · exact triangleBlockLines_chars tt l hlb
  · intro c hc
    rcases List.mem_append.mp hc with h | h
    · exact hendsolid c h
    · exact ⟨fun he => hn (he ▸ h), fun he => hr (he ▸ h)⟩

theorem mem_intersperse {c sep : List Char} {ls : List (List Char)}
    (hc : c ∈ ls.intersperse sep) : c = sep ∨ c ∈ ls := by
  induction ls with
  | nil => simp at hc
  | cons a tl ih =>
      cases tl with
      | nil =>
          simp at hc
          exact Or.inr (by simp [hc])
      | cons b tl' =>
          rw [List.intersperse_cons₂] at hc
          simp only [List.mem_cons] at hc
          rcases hc with rfl | rfl | h
          · exact Or.inr (List.mem_cons_self _ _)
          · exact Or.inl rfl
          · rcases ih h with h' | h'
            · exact Or.inl h'
            · exact Or.inr (List.mem_cons_of_mem _ h')

theorem no_mem_intercalate_nl {ls : List (List Char)} {c : Char}
    (hsep : c ≠ '\n') (hls : ∀ l ∈ ls, c ∉ l) : c ∉ List.intercalate ['\n'] ls := by
  intro hc
  rw [List.intercalate, List.mem_flatten] at hc
  obtain ⟨l, hl, hcl⟩ := hc
  rcases mem_intersperse hl with rfl | hmem
  · simp at hcl
    exact hsep hcl
  · exact hls l hmem hcl

theorem parseAsciiStl_trianglesToAscii (M : List Triangle) (name : List Char)
    (hn : '\n' ∉ name) (hr : '\r' ∉ name) :
    parseAsciiStl (trianglesToAscii M name 6) = M.map reparsedTri := by
  have hchars := emittedLines_chars M name hn hr
  unfold parseAsciiStl trianglesToAscii
  rw [replaceCRLF_of_no_cr _ (no_mem_intercalate_nl (by decide)
    (fun l hl hc => (hchars l hl '\r' hc).2 rfl))]
  rw [List.splitOn_intercalate _ '\n' (fun l hl hc => (hchars l hl '\n' hc).1 rfl)
    (by simp [trianglesToAsciiLines])]
  unfold trianglesToAsciiLines
  rw [show (("solid ".toList ++ name) ::
      (M.map fun tri => triangleBlockLines tri 6).flatten ++
        [("endsolid ".toList ++ name)] : List (List Char)) =
    ("solid ".toList ++ name) ::
      ((M.map fun tri => triangleBlockLines tri 6).flatten ++
        [("endsolid ".toList ++ name)]) from rfl]
  rw [parseLoop_cons_other _ _ (isFacetLine_solid name)]
  rw [parseLoop_emitted_blocks M [("endsolid ".toList ++ name)]]
  rw [parseLoop_cons_other _ _ (isFacetLine_endsolid name), parseLoop_nil]
  simp

/-- C8: for every mesh decoded from text, re-encoding it to the text format
with precision 6 (under a solid name free of newline and carriage-return
characters) and decoding the result again yields a mesh with the same number
of triangles whose per-triangle vertex coordinates each differ from the
original by at most 10⁻⁶ in absolute value. -/
theorem asciiRoundTrip (text name : List Char)
    (hn : '\n' ∉ name) (hr : '\r' ∉ name) :
    (parseAsciiStl (trianglesToAscii (parseAsciiStl text) name 6)).length =
        (parseAsciiStl text).length ∧
      ∀ j : ℕ, j < (parseAsciiStl text).length →
        triVertsClose (1 / 1000000)
          ((parseAsciiStl (trianglesToAscii (parseAsciiStl text) name 6)).getD j default)
          ((parseAsciiStl text).getD j default) := by
  rw [parseAsciiStl_trianglesToAscii (parseAsciiStl text) name hn hr]
  constructor
  · simp
  · intro j hj
    rw [List.getD_eq_getElem _ _ (by simpa using hj), List.getD_eq_getElem _ _ hj,
      List.getElem_map]
    exact ⟨reparsedVec_close _, reparsedVec_close _, reparsedVec_close _⟩

/-- Witness for the round-trip theorem: the name `"m"` has no newline
characters, and the theorem applies to the (empty) mesh decoded from the
empty text. -/
theorem asciiRoundTrip_witness :
    '\n' ∉ "m".toList ∧ '\r' ∉ "m".toList ∧
      ((parseAsciiStl (trianglesToAscii (parseAsciiStl []) "m".toList 6)).length =
          (parseAsciiStl ([] : List Char)).length ∧
        ∀ j : ℕ, j < (parseAsciiStl ([] : List Char)).length →
          triVertsClose (1 / 1000000)
            ((parseAsciiStl (trianglesToAscii (parseAsciiStl []) "m".toList 6)).getD j default)
            ((parseAsciiStl ([] : List Char)).getD j default)) :=
  ⟨by decide, by decide, asciiRoundTrip [] "m".toList (by decide) (by decide)⟩

/-! ## Claim C3 — finiteness of the metric bundle -/

theorem insertionSort_replicate_inf (n : ℕ) :
    List.insertionSort JQ.sle (List.replicate n JQ.inf) = List.replicate n JQ.inf :=
  List.Sorted.insertionSort_eq (List.pairwise_replicate.mpr (Or.inr (by decide)))

theorem foldl_add_inf_replicate (m : ℕ) :
    (List.replicate m JQ.inf).foldl JQ.add JQ.inf = JQ.inf := by
  induction m with
  | zero => rfl
  | succ m ih =>
      rw [List.replicate_succ, List.foldl_cons]
      exact ih

theorem foldl_add_replicate_inf (n : ℕ) (hn : n ≠ 0) :
    (List.replicate n JQ.inf).foldl JQ.add (JQ.num 0) = JQ.inf := by
  cases n with
  | zero => exact absurd rfl hn
  | succ m =>
      rw [List.replicate_succ, List.foldl_cons]
      exact foldl_add_inf_replicate m

theorem oneWay_to_nil (sqrtF : ℚ → ℚ) (a : List Vec3) (ha : a.length ≠ 0) :
    oneWay sqrtF a [] = { mean := JQ.inf, p95 := JQ.inf, max := JQ.inf } := by
  have h1 : (a.map fun p => JQ.sqrt sqrtF (minSqDist p [])) =
      List.replicate a.length JQ.inf := by
    have h2 : (fun p : Vec3 => JQ.sqrt sqrtF (minSqDist p [])) = fun _ => JQ.inf :=
      funext fun p => rfl
    rw [h2, List.map_const']
  have hget : ∀ i, i < a.length →
      (List.replicate a.length JQ.inf).getD i (JQ.num 0) = JQ.inf := by
    intro i hi
    rw [List.getD_eq_getElem _ _ (by simpa using hi)]
    simp
  have hi1 : Nat.min (a.length - 1) (19 * a.length / 20) < a.length := by
    show min (a.length - 1) (19 * a.length / 20) < a.length
    omega
  have hi2 : a.length - 1 < a.length := by omega
  have hdiv : JQ.div JQ.inf (JQ.num (a.length : ℚ)) = JQ.inf := by
    simp only [JQ.div]
    rw [if_pos (by positivity)]
  simp only [oneWay, h1, insertionSort_replicate_inf]
  rw [foldl_add_replicate_inf _ ha, if_neg ha, hget _ hi1, hget _ hi2, hdiv]

theorem oneWay_nil_left (sqrtF : ℚ → ℚ) (b : List Vec3) :
    oneWay sqrtF [] b = { mean := JQ.num 0, p95 := JQ.num 0, max := JQ.num 0 } := by
  simp only [oneWay, List.map_nil, List.insertionSort, List.length_nil, List.foldl_nil,
    List.getD, Nat.min_def]
  norm_num [JQ.div]

theorem oneWay_nil_nil (sqrtF : ℚ → ℚ) :
    oneWay sqrtF [] [] = { mean := JQ.num 0, p95 := JQ.num 0, max := JQ.num 0 } :=
  oneWay_nil_left sqrtF []

/-- `chamferDistance` of a non-empty cloud against an empty one: the three
A→B statistics are `Infinity` (the minimum distances stay at their `Infinity`
start), the three B→A statistics are 0 (empty source side: `0/(0||1)` and the
`?? 0` defaults). -/
theorem chamferDistance_to_nil (sqrtF : ℚ → ℚ) (A : List Vec3)
    (hA : A.length ≠ 0) :
    chamferDistance sqrtF A [] =
      { meanAB := JQ.inf, meanBA := JQ.num 0, p95AB := JQ.inf, p95BA := JQ.num 0,
        maxAB := JQ.inf, maxBA := JQ.num 0 } := by
  simp only [chamferDistance, oneWay_to_nil sqrtF A hA, oneWay_nil_left sqrtF A]

/-- C3 counterexample: comparing a (structurally valid, degenerate)
one-triangle mesh against an empty mesh puts `NaN` into the bundle.  The
three unnormalised Chamfer statistics toward the empty mesh are `Infinity`
(every sampled source point has no target point, so its minimum distance
stays `Infinity`), the normalising diagonal is `Infinity` (the empty mesh's
sentinel box has infinite extents), and `Infinity / Infinity` is `NaN`; the
three statistics from the empty side are `0 / Infinity = 0`. -/
theorem compareMeshes_one_empty_nan :
    (compareMeshes id (fun _ => 0) (fun _ => 0)
        [{ normal := ⟨0, 0, 0⟩, v0 := ⟨0, 0, 0⟩, v1 := ⟨0, 0, 0⟩, v2 := ⟨0, 0, 0⟩ }]
        []).chamfer.meanAB = JQ.nan ∧
    (compareMeshes id (fun _ => 0) (fun _ => 0)
        [{ normal := ⟨0, 0, 0⟩, v0 := ⟨0, 0, 0⟩, v1 := ⟨0, 0, 0⟩, v2 := ⟨0, 0, 0⟩ }]
        []).chamfer.p95AB = JQ.nan ∧
    (compareMeshes id (fun _ => 0) (fun _ => 0)
        [{ normal := ⟨0, 0, 0⟩, v0 := ⟨0, 0, 0⟩, v1 := ⟨0, 0, 0⟩, v2 := ⟨0, 0, 0⟩ }]
        []).chamfer.maxAB = JQ.nan ∧
    (compareMeshes id (fun _ => 0) (fun _ => 0)
        [{ normal := ⟨0, 0, 0⟩, v0 := ⟨0, 0, 0⟩, v1 := ⟨0, 0, 0⟩, v2 := ⟨0, 0, 0⟩ }]
        []).chamfer.meanBA = JQ.num 0 ∧
    (compareMeshes id (fun _ => 0) (fun _ => 0)
        [{ normal := ⟨0, 0, 0⟩, v0 := ⟨0, 0, 0⟩, v1 := ⟨0, 0, 0⟩, v2 := ⟨0, 0, 0⟩ }]
        []).chamfer.p95BA = JQ.num 0 ∧
    (compareMeshes id (fun _ => 0) (fun _ => 0)
        [{ normal := ⟨0, 0, 0⟩, v0 := ⟨0, 0, 0⟩, v1 := ⟨0, 0, 0⟩, v2 := ⟨0, 0, 0⟩ }]
        []).chamfer.maxBA = JQ.num 0 := by
  have hG : sampleSurfacePoints id (fun _ => 0) ([] : List Triangle) 2000 = [] := rfl
  have hlenS : (sampleSurfacePoints id (fun _ => 0)
      [{ normal := ⟨0, 0, 0⟩, v0 := ⟨0, 0, 0⟩, v1 := ⟨0, 0, 0⟩, v2 := ⟨0, 0, 0⟩ }]
      2000).length = 2000 := by
    unfold sampleSurfacePoints
    rw [if_neg (by decide)]
    rw [List.length_map, List.length_range]
    rfl
  have hbox0 : aabbOfTriangles
      [{ normal := ⟨0, 0, 0⟩, v0 := ⟨0, 0, 0⟩, v1 := ⟨0, 0, 0⟩, v2 := ⟨0, 0, 0⟩ }] =
      ⟨⟨JQ.num 0, JQ.num 0, JQ.num 0⟩, ⟨JQ.num 0, JQ.num 0, JQ.num 0⟩⟩ := rfl
  have hdS : aabbDiagonal id (aabbOfTriangles
      [{ normal := ⟨0, 0, 0⟩, v0 := ⟨0, 0, 0⟩, v1 := ⟨0, 0, 0⟩, v2 := ⟨0, 0, 0⟩ }]) =
      JQ.num 0 := by
    rw [hbox0]
    simp only [aabbDiagonal, JQ.sub_num, JQ.mul_num, JQ.add_num]
    rw [show (0 : ℚ) - 0 = 0 by norm_num]
    rw [show (0 : ℚ) * 0 + 0 * 0 + 0 * 0 = 0 by norm_num]
    rw [JQ.sqrt_num_of_nonneg id (le_refl (0 : ℚ))]
    rfl
  have hch : chamferDistance id
      (sampleSurfacePoints id (fun _ => 0)
        [{ normal := ⟨0, 0, 0⟩, v0 := ⟨0, 0, 0⟩, v1 := ⟨0, 0, 0⟩, v2 := ⟨0, 0, 0⟩ }] 2000)
      (sampleSurfacePoints id (fun _ => 0) ([] : List Triangle) 2000) =
      { meanAB := JQ.inf, meanBA := JQ.num 0, p95AB := JQ.inf, p95BA := JQ.num 0,
        maxAB := JQ.inf, maxBA := JQ.num 0 } := by
    rw [hG]
    exact chamferDistance_to_nil id _ (by rw [hlenS]; omega)
  refine ⟨?_, ?_, ?_, ?_, ?_, ?_⟩ <;>
    · simp only [compareMeshes]
      rw [hch, hdS]
      rfl

theorem isFinite_ite_num (c : Prop) [Decidable c] (a b : ℚ) :
    JQ.IsFinite (if c then JQ.num a else JQ.num b) := by
  split
  · exact ⟨a, rfl⟩
  · exact ⟨b, rfl⟩

theorem aabbIou_finite (a1 a2 a3 a4 a5 a6 b1 b2 b3 b4 b5 b6 : ℚ) :
    JQ.IsFinite (aabbIou
      ⟨⟨JQ.num a1, JQ.num a2, JQ.num a3⟩, ⟨JQ.num a4, JQ.num a5, JQ.num a6⟩⟩
      ⟨⟨JQ.num b1, JQ.num b2, JQ.num b3⟩, ⟨JQ.num b4, JQ.num b5, JQ.num b6⟩⟩) := by
  unfold aabbIou aabbIntersection
  simp only [JQ.maxJ_num, JQ.minJ_num, JQ.ltb_num]
  by_cases hcond : (decide (a4 ⊓ b4 < a1 ⊔ b1) || decide (a5 ⊓ b5 < a2 ⊔ b2) ||
      decide (a6 ⊓ b6 < a3 ⊔ b3)) = true
  · rw [if_pos hcond]
    exact ⟨0, rfl⟩
  · rw [if_neg hcond]
    simp only [aabbVolume, JQ.sub_num, JQ.maxJ_num, JQ.mul_num, JQ.add_num, JQ.ltb_num]
    split
    · next h =>
        rw [JQ.div_num_of_ne _ (ne_of_gt (of_decide_eq_true h))]
        exact ⟨_, rfl⟩
    · exact ⟨0, rfl⟩

theorem sampleSurfacePoints_2000_length (sqrtF : ℚ → ℚ) (rng : ℕ → ℚ)
    (tris : List Triangle) (h : tris ≠ []) :
    (sampleSurfacePoints sqrtF rng tris 2000).length = 2000 := by
  unfold sampleSurfacePoints
  rw [if_neg]
  · rw [List.length_map, List.length_range]
    rfl
  · rintro (h0 | h0)
    · exact h (List.length_eq_zero.mp h0)
    · omega

theorem aabbDiagonal_num_box (sqrtF : ℚ → ℚ) (a1 a2 a3 b1 b2 b3 : ℚ) :
    aabbDiagonal sqrtF ⟨⟨JQ.num a1, JQ.num a2, JQ.num a3⟩, ⟨JQ.num b1, JQ.num b2, JQ.num b3⟩⟩ =
      JQ.num (sqrtF ((b1 - a1) * (b1 - a1) + (b2 - a2) * (b2 - a2) +
        (b3 - a3) * (b3 - a3))) := by
  simp only [aabbDiagonal, JQ.sub_num, JQ.mul_num, JQ.add_num]
  exact JQ.sqrt_num_of_nonneg sqrtF
    (add_nonneg (add_nonneg (mul_self_nonneg _) (mul_self_nonneg _)) (mul_self_nonneg _))

/-- C3 amended: when the two meshes are both empty or both non-empty (and
`Math.sqrt` is monotone, as it is), every scalar of the metric bundle is a
finite number — the ratio fields are finite for all inputs; with exactly one
empty mesh the scale-normalised Chamfer statistics become `NaN` instead. -/
theorem compareMeshes_finite (sqrtF : ℚ → ℚ) (hm : Monotone sqrtF)
    (rngA rngB : ℕ → ℚ) (srcTris genTris : List Triangle)
    (hiff : srcTris = [] ↔ genTris = []) :
    JQ.IsFinite (compareMeshes sqrtF rngA rngB srcTris genTris).aabbIou ∧
    JQ.IsFinite (compareMeshes sqrtF rngA rngB srcTris genTris).surfaceAreaRatio ∧
    JQ.IsFinite (compareMeshes sqrtF rngA rngB srcTris genTris).volumeRatio ∧
    JQ.IsFinite (compareMeshes sqrtF rngA rngB srcTris genTris).chamfer.meanAB ∧
    JQ.IsFinite (compareMeshes sqrtF rngA rngB srcTris genTris).chamfer.meanBA ∧
    JQ.IsFinite (compareMeshes sqrtF rngA rngB srcTris genTris).chamfer.p95AB ∧
    JQ.IsFinite (compareMeshes sqrtF rngA rngB srcTris genTris).chamfer.p95BA ∧
    JQ.IsFinite (compareMeshes sqrtF rngA rngB srcTris genTris).chamfer.maxAB ∧
    JQ.IsFinite (compareMeshes sqrtF rngA rngB srcTris genTris).chamfer.maxBA := by
  by_cases hsrc : srcTris = []
  · have hgen : genTris = [] := hiff.mp hsrc
    subst hsrc
    subst hgen
    have hch : chamferDistance sqrtF
        (sampleSurfacePoints sqrtF rngA ([] : List Triangle) 2000)
        (sampleSurfacePoints sqrtF rngB ([] : List Triangle) 2000) =
        ⟨JQ.num 0, JQ.num 0, JQ.num 0, JQ.num 0, JQ.num 0, JQ.num 0⟩ := by
      have h0 : sampleSurfacePoints sqrtF rngA ([] : List Triangle) 2000 = [] := rfl
      have h1 : sampleSurfacePoints sqrtF rngB ([] : List Triangle) 2000 = [] := rfl
      rw [h0, h1]
      simp only [chamferDistance, oneWay_nil_nil]
    simp only [compareMeshes]
    refine ⟨⟨0, rfl⟩, isFinite_ite_num _ _ _, isFinite_ite_num _ _ _, ?_, ?_, ?_, ?_, ?_, ?_⟩ <;>
      (rw [hch]; exact ⟨0, rfl⟩)
  · have hgen : genTris ≠ [] := fun h => hsrc (hiff.mpr h)
    obtain ⟨mnS, mxS, hboxS, -, -⟩ := aabbOf_nonempty srcTris hsrc
    obtain ⟨mnG, mxG, hboxG, -, -⟩ := aabbOf_nonempty genTris hgen
    have hlenA := sampleSurfacePoints_2000_length sqrtF rngA srcTris hsrc
    have hlenB := sampleSurfacePoints_2000_length sqrtF rngB genTris hgen
    have hAne : sampleSurfacePoints sqrtF rngA srcTris 2000 ≠ [] := by
      intro h
      rw [h] at hlenA
      simp at hlenA
    have hBne : sampleSurfacePoints sqrtF rngB genTris 2000 ≠ [] := by
      intro h
      rw [h] at hlenB
      simp at hlenB
    have hab := oneWay_spec sqrtF hm (sampleSurfacePoints sqrtF rngA srcTris 2000)
      (sampleSurfacePoints sqrtF rngB genTris 2000) hAne hBne
    have hba := oneWay_spec sqrtF hm (sampleSurfacePoints sqrtF rngB genTris 2000)
      (sampleSurfacePoints sqrtF rngA srcTris 2000) hBne hAne
    obtain ⟨qS, hdS⟩ : ∃ q, aabbDiagonal sqrtF (aabbOfTriangles srcTris) = JQ.num q :=
      ⟨_, by rw [hboxS]; exact aabbDiagonal_num_box sqrtF _ _ _ _ _ _⟩
    obtain ⟨qG, hdG⟩ : ∃ q, aabbDiagonal sqrtF (aabbOfTriangles genTris) = JQ.num q :=
      ⟨_, by rw [hboxG]; exact aabbDiagonal_num_box sqrtF _ _ _ _ _ _⟩
    have hdiag : JQ.maxJ (JQ.num (1 / 1000000000))
        (JQ.maxJ (aabbDiagonal sqrtF (aabbOfTriangles srcTris))
          (aabbDiagonal sqrtF (aabbOfTriangles genTris))) =
        JQ.num (max (1 / 1000000000) (max qS qG)) := by
      rw [hdS, hdG, JQ.maxJ_num, JQ.maxJ_num]
    have hdne : max (1 / 1000000000 : ℚ) (max qS qG) ≠ 0 :=
      ne_of_gt (lt_of_lt_of_le (by norm_num) (le_max_left _ _))
    simp only [compareMeshes, chamferDistance]
    refine ⟨?_, isFinite_ite_num _ _ _, isFinite_ite_num _ _ _, ?_, ?_, ?_, ?_, ?_, ?_⟩
    · rw [hboxS, hboxG]
      exact aabbIou_finite mnS.x mnS.y mnS.z mxS.x mxS.y mxS.z
        mnG.x mnG.y mnG.z mxG.x mxG.y mxG.z
    all_goals
      simp only [hab, hba, hdiag]
      rw [JQ.div_num_of_ne _ hdne]
      exact ⟨_, rfl⟩

/-- Witness for the amended bundle-finiteness theorem (`sqrtF = id` is
monotone; two empty meshes). -/
theorem compareMeshes_finite_witness :
    Monotone (id : ℚ → ℚ) ∧ (([] : List Triangle) = [] ↔ ([] : List Triangle) = []) ∧
      (JQ.IsFinite (compareMeshes id (fun _ => 0) (fun _ => 0) [] []).aabbIou ∧
       JQ.IsFinite (compareMeshes id (fun _ => 0) (fun _ => 0) [] []).surfaceAreaRatio ∧
       JQ.IsFinite (compareMeshes id (fun _ => 0) (fun _ => 0) [] []).volumeRatio ∧
       JQ.IsFinite (compareMeshes id (fun _ => 0) (fun _ => 0) [] []).chamfer.meanAB ∧
       JQ.IsFinite (compareMeshes id (fun _ => 0) (fun _ => 0) [] []).chamfer.meanBA ∧
       JQ.IsFinite (compareMeshes id (fun _ => 0) (fun _ => 0) [] []).chamfer.p95AB ∧
       JQ.IsFinite (compareMeshes id (fun _ => 0) (fun _ => 0) [] []).chamfer.p95BA ∧
       JQ.IsFinite (compareMeshes id (fun _ => 0) (fun _ => 0) [] []).chamfer.maxAB ∧
       JQ.IsFinite (compareMeshes id (fun _ => 0) (fun _ => 0) [] []).chamfer.maxBA) :=
  ⟨monotone_id, Iff.rfl,
    compareMeshes_finite id monotone_id (fun _ => 0) (fun _ => 0) [] [] Iff.rfl⟩

end StlBench
